import Mathlib

/-
Shallow embedding of the parser-combinator package in src/parser.go
(package parser, github.com/FollowTheProcess/parser).

Go strings are byte slices, so we model them as lists of bytes (`List Nat`,
each entry < 256 on real inputs).  Unicode code points ("runes") are `Nat`.
The stdlib pieces the package uses (unicode/utf8 decoding and validation,
strings.Index, strings.ContainsRune, strings.EqualFold, strings.IndexFunc)
are embedded with their Go semantics.  Every parser returns `PResult`:
`ok value remainder`, a structured error mirroring one Go error message,
or `panic` for a Go runtime panic (out-of-range string slicing).
-/

namespace Parser

/-- A Go string: a list of bytes. -/
abbrev GoStr := List Nat

/-- utf8.RuneError, the Unicode replacement character U+FFFD. -/
def runeError : Nat := 0xFFFD

/-- Whether a byte is a UTF-8 continuation byte (0x80..0xBF). -/
def isCont (b : Nat) : Bool := 0x80 ≤ b && b ≤ 0xBF

/-- The allowed range of the second byte of a multi-byte UTF-8 sequence,
given the lead byte.  This is Go's utf8 acceptRanges table: it rules out
overlong encodings (E0/F0 rows), surrogates (ED row) and code points
above U+10FFFF (F4 row). -/
def accept1 (b0 b1 : Nat) : Bool :=
  if b0 == 0xE0 then 0xA0 ≤ b1 && b1 ≤ 0xBF
  else if b0 == 0xED then 0x80 ≤ b1 && b1 ≤ 0x9F
  else if b0 == 0xF0 then 0x90 ≤ b1 && b1 ≤ 0xBF
  else if b0 == 0xF4 then 0x80 ≤ b1 && b1 ≤ 0x8F
  else isCont b1

/-- Go utf8.DecodeRuneInString: decodes the first rune of a string,
returning the rune and the number of bytes consumed.  Empty input gives
(RuneError, 0); an invalid (or truncated) encoding gives (RuneError, 1). -/
def decodeRune : GoStr → Nat × Nat
  | [] => (runeError, 0)
  | b0 :: rest =>
    if b0 < 0x80 then (b0, 1)
    else if 0xC2 ≤ b0 && b0 ≤ 0xDF then
      match rest with
      | b1 :: _ =>
        if isCont b1 then ((b0 % 0x20) * 0x40 + b1 % 0x40, 2) else (runeError, 1)
      | [] => (runeError, 1)
    else if 0xE0 ≤ b0 && b0 ≤ 0xEF then
      match rest with
      | b1 :: b2 :: _ =>
        if accept1 b0 b1 && isCont b2 then
          ((b0 % 0x10) * 0x1000 + (b1 % 0x40) * 0x40 + b2 % 0x40, 3)
        else (runeError, 1)
      | _ => (runeError, 1)
    else if 0xF0 ≤ b0 && b0 ≤ 0xF4 then
      match rest with
      | b1 :: b2 :: b3 :: _ =>
        if accept1 b0 b1 && isCont b2 && isCont b3 then
          ((b0 % 8) * 0x40000 + (b1 % 0x40) * 0x1000 + (b2 % 0x40) * 0x40 + b3 % 0x40, 4)
        else (runeError, 1)
      | _ => (runeError, 1)
    else (runeError, 1)

/-- Go utf8.RuneLen: the number of bytes in the UTF-8 encoding of a rune,
or -1 if the rune is not encodable (a surrogate or above U+10FFFF). -/
def runeLen (r : Nat) : Int :=
  if r < 0x80 then 1
  else if r < 0x800 then 2
  else if 0xD800 ≤ r ∧ r ≤ 0xDFFF then -1
  else if r < 0x10000 then 3
  else if r ≤ 0x10FFFF then 4
  else -1

/-- Fuel-driven worker for `validString`.  Each step consumes at least one
byte, so with fuel = byte length the fuel can run out only once the string
is empty, where the `true` of the first pattern applies; the fuel is purely
a termination device and does not change the function's value (see
`validAux_congr`). -/
def validAux : Nat → GoStr → Bool
  | _, [] => true
  | 0, _ :: _ => false
  | fuel + 1, b0 :: rest =>
    if b0 < 0x80 then validAux fuel rest
    else if 0xC2 ≤ b0 && b0 ≤ 0xDF then
      match rest with
      | b1 :: rest2 => isCont b1 && validAux fuel rest2
      | [] => false
    else if 0xE0 ≤ b0 && b0 ≤ 0xEF then
      match rest with
      | b1 :: b2 :: rest3 => accept1 b0 b1 && isCont b2 && validAux fuel rest3
      | _ => false
    else if 0xF0 ≤ b0 && b0 ≤ 0xF4 then
      match rest with
      | b1 :: b2 :: b3 :: rest4 =>
        accept1 b0 b1 && isCont b2 && isCont b3 && validAux fuel rest4
      | _ => false
    else false

/-- Go utf8.ValidString: whether the bytes are a well-formed UTF-8 encoding.
Structured exactly like `decodeRune`'s acceptance conditions. -/
def validString (s : GoStr) : Bool := validAux s.length s

/-- Fuel-driven worker for `runesFrom`.  Each step emits one rune and
consumes at least one byte, so with fuel = byte length the fuel can run
out only once the string is empty, where the result `[]` agrees with the
empty-string case; the fuel is purely a termination device and does not
change the function's value (see `runesAux_congr`). -/
def runesAux : Nat → Nat → GoStr → List (Nat × Nat)
  | _, _, [] => []
  | 0, _, _ :: _ => []
  | fuel + 1, pos, b0 :: rest =>
    if b0 < 0x80 then (pos, b0) :: runesAux fuel (pos + 1) rest
    else if 0xC2 ≤ b0 && b0 ≤ 0xDF then
      match rest with
      | b1 :: rest2 =>
        if isCont b1 then (pos, (b0 % 0x20) * 0x40 + b1 % 0x40) :: runesAux fuel (pos + 2) rest2
        else (pos, runeError) :: runesAux fuel (pos + 1) (b1 :: rest2)
      | [] => (pos, runeError) :: runesAux fuel (pos + 1) []
    else if 0xE0 ≤ b0 && b0 ≤ 0xEF then
      match rest with
      | b1 :: b2 :: rest3 =>
        if accept1 b0 b1 && isCont b2 then
          (pos, (b0 % 0x10) * 0x1000 + (b1 % 0x40) * 0x40 + b2 % 0x40)
            :: runesAux fuel (pos + 3) rest3
        else (pos, runeError) :: runesAux fuel (pos + 1) (b1 :: b2 :: rest3)
      | rest1 => (pos, runeError) :: runesAux fuel (pos + 1) rest1
    else if 0xF0 ≤ b0 && b0 ≤ 0xF4 then
      match rest with
      | b1 :: b2 :: b3 :: rest4 =>
        if accept1 b0 b1 && isCont b2 && isCont b3 then
          (pos, (b0 % 8) * 0x40000 + (b1 % 0x40) * 0x1000 + (b2 % 0x40) * 0x40 + b3 % 0x40)
            :: runesAux fuel (pos + 4) rest4
        else (pos, runeError) :: runesAux fuel (pos + 1) (b1 :: b2 :: b3 :: rest4)
      | rest1 => (pos, runeError) :: runesAux fuel (pos + 1) rest1
    else (pos, runeError) :: runesAux fuel (pos + 1) rest

/-- Go's `for pos, char := range s` loop over a string: the list of
(byte position, rune) pairs, starting at byte position `pos`.  An invalid
byte sequence yields RuneError and advances exactly one byte, exactly as
Go's range loop (and repeated DecodeRuneInString) does.  The branch
structure mirrors `decodeRune`. -/
def runesFrom (pos : Nat) (s : GoStr) : List (Nat × Nat) := runesAux s.length pos s

/-- Go utf8.ValidRune: whether a code point can be legally encoded. -/
def validRune (r : Nat) : Bool := r < 0xD800 || (0xE000 ≤ r && r ≤ 0x10FFFF)

/-- UTF-8 encoding of a valid rune (Go `string(r)` for valid `r`). -/
def encodeRune (r : Nat) : GoStr :=
  if r < 0x80 then [r]
  else if r < 0x800 then [0xC0 + r / 0x40, 0x80 + r % 0x40]
  else if r < 0x10000 then [0xE0 + r / 0x1000, 0x80 + (r / 0x40) % 0x40, 0x80 + r % 0x40]
  else [0xF0 + r / 0x40000, 0x80 + (r / 0x1000) % 0x40, 0x80 + (r / 0x40) % 0x40, 0x80 + r % 0x40]

/-- Helper for `indexOf`: the byte index (counting from `i`) of the first
occurrence of `pat` in `s`, if any. -/
def indexOfAux (pat : GoStr) : GoStr → Nat → Option Nat
  | s, i =>
    if pat.isPrefixOf s then some i
    else
      match s with
      | [] => none
      | _ :: rest => indexOfAux pat rest (i + 1)

/-- Go strings.Index: byte index of the first occurrence of `pat` in `s`,
or -1 if absent.  Index(s, "") = 0. -/
def indexOf (s pat : GoStr) : Int :=
  match indexOfAux pat s 0 with
  | some i => (i : Int)
  | none => -1

/-- Go strings.ContainsRune (= IndexRune(s, r) >= 0): ASCII runes are
searched as bytes; RuneError matches any invalid byte sequence or an
encoded U+FFFD (both decode to RuneError under the range loop);
unencodable runes match nothing; other runes are searched by their
UTF-8 encoding. -/
def containsRune (s : GoStr) (r : Nat) : Bool :=
  if r < 0x80 then s.contains r
  else if r == runeError then (runesFrom 0 s).any (fun t => t.2 == runeError)
  else if validRune r then indexOf s (encodeRune r) != -1
  else false

/-- Go utf8.RuneCountInString: the number of runes obtained by scanning
the string (invalid bytes each count as one RuneError). -/
def runeCount (s : GoStr) : Nat := (runesFrom 0 s).length

/-- Go strings.IndexFunc: byte index of the first rune satisfying f,
or -1 if there is none. -/
def indexFunc (s : GoStr) (f : Nat → Bool) : Int :=
  match (runesFrom 0 s).find? (fun t => f t.2) with
  | some t => (t.1 : Int)
  | none => -1

/-- Model of Go unicode.SimpleFold, exact on the code points this
development evaluates it at: ASCII, and the two entries of Go's caseOrbit
table whose orbits contain ASCII letters, {K, k, U+212A KELVIN SIGN} and
{S, s, U+017F LATIN SMALL LETTER LONG S}.  SimpleFold returns the next
code point of the orbit in ascending circular order; a plain ASCII letter's
orbit is {upper, lower}.  Code points outside this domain are modelled as
fixed points (they never meet the concrete inputs used below). -/
def simpleFold (r : Nat) : Nat :=
  if r == 0x4B then 0x6B
  else if r == 0x6B then 0x212A
  else if r == 0x212A then 0x4B
  else if r == 0x53 then 0x73
  else if r == 0x73 then 0x17F
  else if r == 0x17F then 0x53
  else if 0x41 ≤ r && r ≤ 0x5A then r + 0x20
  else if 0x61 ≤ r && r ≤ 0x7A then r - 0x20
  else r

/-- The inner loop of Go strings.EqualFold:
`r := SimpleFold(sr); for r != sr && r < tr { r = SimpleFold(r) }`.
Our `simpleFold` orbits have at most three elements, so eight fuel steps
always reach the loop's exit condition. -/
def foldLoop : Nat → Nat → Nat → Nat → Nat
  | 0, _, r, _ => r
  | fuel + 1, sr, r, tr => if r != sr && r < tr then foldLoop fuel sr (simpleFold r) tr else r

/-- Fuel-driven worker for `equalFold` (Go strings.EqualFold).  Each
iteration consumes at least one byte of `s`, so with fuel = s.length the
fuel can reach 0 only once `s` is empty, where `s == t` is exactly Go's
loop-exit return value. -/
def equalFoldAux : Nat → GoStr → GoStr → Bool
  | 0, s, t => s == t
  | _ + 1, [], t => ([] : GoStr) == t
  | _ + 1, sb :: srest, [] => (sb :: srest) == ([] : GoStr)
  | fuel + 1, sb :: srest, tb :: trest =>
    let sStep := if sb < 0x80 then (sb, 1) else decodeRune (sb :: srest)
    let tStep := if tb < 0x80 then (tb, 1) else decodeRune (tb :: trest)
    let s1 := (sb :: srest).drop sStep.2
    let t1 := (tb :: trest).drop tStep.2
    if tStep.1 == sStep.1 then equalFoldAux fuel s1 t1
    else
      let sr := if tStep.1 < sStep.1 then tStep.1 else sStep.1
      let tr := if tStep.1 < sStep.1 then sStep.1 else tStep.1
      if tr < 0x80 then
        if 0x41 ≤ sr && sr ≤ 0x5A && tr == sr + 0x20 then equalFoldAux fuel s1 t1 else false
      else if foldLoop 8 sr (simpleFold sr) tr == tr then equalFoldAux fuel s1 t1
      else false

/-- Go strings.EqualFold: case-insensitive equality under simple Unicode
case folding. -/
def equalFold (s t : GoStr) : Bool := equalFoldAux s.length s t

/-- One constructor per distinct error return in src/parser.go; the
constructor arguments are the values interpolated into the Go message. -/
inductive PErr where
  /-- "Take: n must be a non-zero positive integer, got %d" -/
  | takeNotPositive (n : Int)
  /-- "Take: cannot take from empty input" -/
  | takeEmptyInput
  /-- "Take: input not valid utf-8" -/
  | takeNotUtf8
  /-- "Take: requested n (%d) chars but input had only %d utf-8 chars" -/
  | takeNotEnough (n : Int) (count : Nat)
  /-- "Exact: cannot match on empty input" -/
  | exactEmptyInput
  /-- "Exact: input not valid utf-8" -/
  | exactNotUtf8
  /-- "Exact: match must not be empty" -/
  | exactMatchEmpty
  /-- "Exact: match (%s) not in input" -/
  | exactNoMatch (m : GoStr)
  /-- "ExactCaseInsensitive: cannot match on empty input" -/
  | eciEmptyInput
  /-- "ExactCaseInsensitive: input not valid utf-8" -/
  | eciNotUtf8
  /-- "ExactCaseInsensitive: match must not be empty" -/
  | eciMatchEmpty
  /-- "ExactCaseInsensitive: match (%s) not in input" -/
  | eciNoMatch (m : GoStr)
  /-- "Char: input text is empty" -/
  | charEmptyInput
  /-- "Char: input not valid utf-8" -/
  | charNotUtf8
  /-- "Char: requested char (%s) not found in input" -/
  | charNoMatch (c : Nat)
  /-- "TakeWhile: input text is empty" -/
  | takeWhileEmptyInput
  /-- "TakeWhile: input not valid utf-8" -/
  | takeWhileNotUtf8
  /-- "TakeWhile: predicate must be a non-nil function" -/
  | takeWhileNilPredicate
  /-- "TakeWhile: predicate never returned false" -/
  | takeWhileNeverFalse
  /-- "TakeUntil: input text is empty" -/
  | takeUntilEmptyInput
  /-- "TakeUntil: input not valid utf-8" -/
  | takeUntilNotUtf8
  /-- "TakeUntil: predicate must be a non-nil function" -/
  | takeUntilNilPredicate
  /-- "TakeUntil: predicate never returned true" -/
  | takeUntilNeverTrue
  /-- "TakeWhileBetween: input text is empty" -/
  | twbEmptyInput
  /-- "TakeWhileBetween: input not valid utf-8" -/
  | twbNotUtf8
  /-- "TakeWhileBetween: predicate must be a non-nil function" -/
  | twbNilPredicate
  /-- "TakeWhileBetween: lower limit (%d) not allowed, must be positive integer" -/
  | twbLowerNegative (lower : Int)
  /-- "TakeWhileBetween: invalid range, lower (%d) must be < upper (%d)" -/
  | twbInvalidRange (lower upper : Int)
  /-- "TakeWhileBetween: predicate matched no chars in input" -/
  | twbNoMatch
  /-- "TakeWhileBetween: predicate matched only %d chars (%s), below lower limit (%d)" -/
  | twbBelowLower (n : Nat) (matched : GoStr) (lower : Int)
  /-- "TakeTo: input text is empty" -/
  | takeToEmptyInput
  /-- "TakeTo: input not valid utf-8" -/
  | takeToNotUtf8
  /-- "TakeTo: match must not be empty" -/
  | takeToMatchEmpty
  /-- "TakeTo: match (%s) not in input" -/
  | takeToNoMatch (m : GoStr)
  /-- "OneOf: input text is empty" -/
  | oneOfEmptyInput
  /-- "OneOf: chars must not be empty" -/
  | oneOfCharsEmpty
  /-- "OneOf: input not valid utf-8" -/
  | oneOfNotUtf8
  /-- "OneOf: no requested char (%s) found in input" -/
  | oneOfNoMatch (chars : GoStr)
  /-- "NoneOf: input text is empty" -/
  | noneOfEmptyInput
  /-- "NoneOf: chars must not be empty" -/
  | noneOfCharsEmpty
  /-- "NoneOf: input not valid utf-8" -/
  | noneOfNotUtf8
  /-- "NoneOf: found match (%s) in input" -/
  | noneOfFound (r : Nat)
  /-- "AnyOf: input text is empty" -/
  | anyOfEmptyInput
  /-- "AnyOf: chars must not be empty" -/
  | anyOfCharsEmpty
  /-- "AnyOf: input not valid utf-8" -/
  | anyOfNotUtf8
  /-- "AnyOf: no match for any char in (%s) found in input" -/
  | anyOfNoMatch (chars : GoStr)
  /-- "NotAnyOf: input text is empty" -/
  | notAnyOfEmptyInput
  /-- "NotAnyOf: chars must not be empty" -/
  | notAnyOfCharsEmpty
  /-- "NotAnyOf: input not valid utf-8" -/
  | notAnyOfNotUtf8
  /-- "NotAnyOf: match found for char in (%s)" -/
  | notAnyOfFound (chars : GoStr)
deriving DecidableEq, Repr

/-- The outcome of applying a parser: success with (value, remainder),
a Go error, or a Go runtime panic. -/
inductive PResult where
  | ok (value remainder : GoStr)
  | err (e : PErr)
  | panic
deriving DecidableEq, Repr

/-- Whether a result is a success. -/
def isOk : PResult → Bool
  | .ok _ _ => true
  | _ => false

/-- Go `return input[:i], input[i:], nil` for an int index `i`: success
when `i` is in range, a runtime panic otherwise. -/
def sliceAt (input : GoStr) (i : Int) : PResult :=
  if 0 ≤ i ∧ i ≤ (input.length : Int) then .ok (input.take i.toNat) (input.drop i.toNat)
  else .panic

/-- The scanning loop of Take: count runes until the count reaches n,
yielding the byte end of the nth rune (`inr end`, end = pos + RuneLen),
or the total rune count if the loop never breaks (`inl`). -/
def takeLoop (n : Int) : Nat → List (Nat × Nat) → Nat ⊕ Int
  | count, [] => .inl count
  | count, (pos, r) :: rest =>
    if (count + 1 : Int) = n then .inr ((pos : Int) + runeLen r)
    else takeLoop n (count + 1) rest

/-- The scanning loop of TakeWhile: `end = pos` each iteration, breaking
(with broken = true) at the first rune failing the predicate. -/
def takeWhileLoop (p : Nat → Bool) : Nat → List (Nat × Nat) → Nat × Bool
  | e, [] => (e, false)
  | _, (pos, r) :: rest => if !(p r) then (pos, true) else takeWhileLoop p pos rest

/-- The scanning loop of TakeUntil: `end = pos` each iteration, breaking
at the first rune satisfying the predicate. -/
def takeUntilLoop (p : Nat → Bool) : Nat → List (Nat × Nat) → Nat × Bool
  | e, [] => (e, false)
  | _, (pos, r) :: rest => if p r then (pos, true) else takeUntilLoop p pos rest

/-- The loop of TakeWhileBetween computing `index`: the byte end
(pos + RuneLen) of the last leading rune satisfying the predicate,
starting from the initial -1 (kept when the very first rune fails). -/
def twbIndexLoop (p : Nat → Bool) : Int → List (Nat × Nat) → Int
  | idx, [] => idx
  | idx, (pos, r) :: rest =>
    if !(p r) then idx else twbIndexLoop p ((pos : Int) + runeLen r) rest

/-- The truncation loop of TakeWhileBetween: scans all runes (no break),
recording `cutOff = pos + RuneLen(char)` at the iteration where the
running count equals upper. -/
def twbCutLoop (upper : Int) : Nat → Int → List (Nat × Nat) → Int
  | _, cut, [] => cut
  | count, cut, (pos, r) :: rest =>
    twbCutLoop upper (count + 1)
      (if (count + 1 : Int) = upper then (pos : Int) + runeLen r else cut) rest

/-- src/parser.go Take (lines 22-57): consume n utf-8 chars. -/
def Take (n : Int) (input : GoStr) : PResult :=
  if n ≤ 0 then .err (.takeNotPositive n)
  else if input = [] then .err .takeEmptyInput
  else if !(validString input) then .err .takeNotUtf8
  else
    match takeLoop n 0 (runesFrom 0 input) with
    | .inl count =>
      if (count : Int) < n then .err (.takeNotEnough n count) else sliceAt input 0
    | .inr e => sliceAt input e

/-- src/parser.go Exact (lines 66-87): consume an exact, case-sensitive
string; the returned value is the match argument itself. -/
def Exact (m : GoStr) (input : GoStr) : PResult :=
  if input = [] then .err .exactEmptyInput
  else if !(validString input) then .err .exactNotUtf8
  else if m = [] then .err .exactMatchEmpty
  else if indexOf input m ≠ 0 then .err (.exactNoMatch m)
  else if m.length ≤ input.length then .ok m (input.drop m.length)
  else .panic

/-- src/parser.go ExactCaseInsensitive (lines 96-127): consume the
input's own prefix iff it EqualFold-matches the match argument. -/
def ExactCaseInsensitive (m : GoStr) (input : GoStr) : PResult :=
  if input.length = 0 then .err .eciEmptyInput
  else if !(validString input) then .err .eciNotUtf8
  else if m.length = 0 then .err .eciMatchEmpty
  else if input.length < m.length then .err (.eciNoMatch m)
  else if !(equalFold (input.take m.length) m) then .err (.eciNoMatch m)
  else .ok (input.take m.length) (input.drop m.length)

/-- src/parser.go Char (lines 132-149): consume one exact utf-8 char.
Only the first rune of the input is decoded. -/
def Char (c : Nat) (input : GoStr) : PResult :=
  if input = [] then .err .charEmptyInput
  else
    let d := decodeRune input
    if d.1 = runeError then .err .charNotUtf8
    else if d.1 ≠ c then .err (.charNoMatch c)
    else sliceAt input (d.2 : Int)

/-- src/parser.go TakeWhile (lines 163-193): consume runes while the
predicate holds; never breaking the loop is an error. -/
def TakeWhile (predicate : Option (Nat → Bool)) (input : GoStr) : PResult :=
  if input = [] then .err .takeWhileEmptyInput
  else if !(validString input) then .err .takeWhileNotUtf8
  else
    match predicate with
    | none => .err .takeWhileNilPredicate
    | some p =>
      let res := takeWhileLoop p 0 (runesFrom 0 input)
      if !res.2 then .err .takeWhileNeverFalse
      else sliceAt input (res.1 : Int)

/-- src/parser.go TakeUntil (lines 208-238): consume runes until the
predicate holds; never breaking the loop is an error. -/
def TakeUntil (predicate : Option (Nat → Bool)) (input : GoStr) : PResult :=
  if input = [] then .err .takeUntilEmptyInput
  else if !(validString input) then .err .takeUntilNotUtf8
  else
    match predicate with
    | none => .err .takeUntilNilPredicate
    | some p =>
      let res := takeUntilLoop p 0 (runesFrom 0 input)
      if !res.2 then .err .takeUntilNeverTrue
      else sliceAt input (res.1 : Int)

/-- src/parser.go TakeWhileBetween (lines 251-324): the longest
(lower ≤ len ≤ upper) predicate-true leading run.  `index` starts at -1;
when the first rune fails the predicate (but some later rune satisfies
it) the Go code slices input[:-1], a runtime panic. -/
def TakeWhileBetween (lower upper : Int) (predicate : Option (Nat → Bool))
    (input : GoStr) : PResult :=
  if input = [] then .err .twbEmptyInput
  else if !(validString input) then .err .twbNotUtf8
  else
    match predicate with
    | none => .err .twbNilPredicate
    | some p =>
      if lower < 0 then .err (.twbLowerNegative lower)
      else if lower > upper then .err (.twbInvalidRange lower upper)
      else if indexFunc input p = -1 then .err .twbNoMatch
      else
        let index := twbIndexLoop p (-1) (runesFrom 0 input)
        if 0 ≤ index ∧ index ≤ (input.length : Int) then
          let startToIndex := input.take index.toNat
          let n := runeCount startToIndex
          if (n : Int) < lower then .err (.twbBelowLower n startToIndex lower)
          else if (n : Int) > upper then
            sliceAt input (twbCutLoop upper 0 0 (runesFrom 0 startToIndex))
          else sliceAt input index
        else .panic

/-- src/parser.go TakeTo (lines 332-353): consume everything up to the
first occurrence of the match string. -/
def TakeTo (m : GoStr) (input : GoStr) : PResult :=
  if input = [] then .err .takeToEmptyInput
  else if !(validString input) then .err .takeToNotUtf8
  else if m = [] then .err .takeToMatchEmpty
  else
    let start := indexOf input m
    if start = -1 then .err (.takeToNoMatch m)
    else sliceAt input start

/-- src/parser.go OneOf (lines 361-393): consume the first char iff it is
one of the given chars.  Only the first rune of the input is decoded. -/
def OneOf (chars : GoStr) (input : GoStr) : PResult :=
  if input = [] then .err .oneOfEmptyInput
  else if chars = [] then .err .oneOfCharsEmpty
  else
    let d := decodeRune input
    if d.1 = runeError then .err .oneOfNotUtf8
    else if (runesFrom 0 chars).any (fun t => t.2 == d.1) then sliceAt input (d.2 : Int)
    else .err (.oneOfNoMatch chars)

/-- src/parser.go NoneOf (lines 402-434): consume the first char iff it is
none of the given chars.  Only the first rune of the input is decoded. -/
def NoneOf (chars : GoStr) (input : GoStr) : PResult :=
  if input = [] then .err .noneOfEmptyInput
  else if chars = [] then .err .noneOfCharsEmpty
  else
    let d := decodeRune input
    if d.1 = runeError then .err .noneOfNotUtf8
    else if (runesFrom 0 chars).any (fun t => t.2 == d.1) then .err (.noneOfFound d.1)
    else sliceAt input (d.2 : Int)

/-- src/parser.go AnyOf (lines 446-476): consume the leading run of chars
contained in `chars`; `end` stays 0 both when the first char is not in the
set and when the run covers the whole input, and `end == 0` is an error. -/
def AnyOf (chars : GoStr) (input : GoStr) : PResult :=
  if input = [] then .err .anyOfEmptyInput
  else if chars = [] then .err .anyOfCharsEmpty
  else if !(validString input) then .err .anyOfNotUtf8
  else
    let stop :=
      match (runesFrom 0 input).find? (fun t => !(containsRune chars t.2)) with
      | some t => t.1
      | none => 0
    if stop = 0 then .err (.anyOfNoMatch chars)
    else sliceAt input (stop : Int)

/-- src/parser.go NotAnyOf (lines 488-518): consume the leading run of
chars not contained in `chars`; as in AnyOf, `end == 0` is an error. -/
def NotAnyOf (chars : GoStr) (input : GoStr) : PResult :=
  if input = [] then .err .notAnyOfEmptyInput
  else if chars = [] then .err .notAnyOfCharsEmpty
  else if !(validString input) then .err .notAnyOfNotUtf8
  else
    let stop :=
      match (runesFrom 0 input).find? (fun t => containsRune chars t.2) with
      | some t => t.1
      | none => 0
    if stop = 0 then .err (.notAnyOfFound chars)
    else sliceAt input (stop : Int)

/-- ASCII letter predicate; it agrees with Go's unicode.IsLetter on every
ASCII input used in the concrete examples below. -/
def asciiLetter (r : Nat) : Bool := (0x41 ≤ r && r ≤ 0x5A) || (0x61 ≤ r && r ≤ 0x7A)

/- ------------------------------------------------------------------
Supporting lemmas.
------------------------------------------------------------------ -/

/-- The fuel argument of `runesAux` is irrelevant once it dominates the
byte length: the function consumes at least one byte per fuel unit. -/
theorem runesAux_congr : ∀ f g pos s, s.length ≤ f → s.length ≤ g →
    runesAux f pos s = runesAux g pos s := by
  intro f
  induction f with
  | zero =>
    intro g pos s hf hg
    have hs : s = [] := List.length_eq_zero.mp (Nat.le_zero.mp hf)
    subst hs
    cases g <;> rfl
  | succ f ih =>
    intro g pos s hf hg
    cases g with
    | zero =>
      have hs : s = [] := List.length_eq_zero.mp (Nat.le_zero.mp hg)
      subst hs
      rfl
    | succ g =>
      cases s with
      | nil => rfl
      | cons b0 rest =>
        simp only [List.length_cons, Nat.succ_le_succ_iff] at hf hg
        simp only [runesAux]
        repeat' split
        all_goals
          first
          | rfl
          | (apply congrArg; apply ih <;> simp_all <;> omega)

/-- `runesFrom` written with any sufficiently large fuel. -/
theorem runesFrom_eq_fuel (f pos : Nat) (s : GoStr) (hf : s.length ≤ f) :
    runesFrom pos s = runesAux f pos s :=
  runesAux_congr s.length f pos s le_rfl hf

/-- The fuel argument of `validAux` is irrelevant once it dominates the
byte length. -/
theorem validAux_congr : ∀ f g s, s.length ≤ f → s.length ≤ g →
    validAux f s = validAux g s := by
  intro f
  induction f with
  | zero =>
    intro g s hf hg
    have hs : s = [] := List.length_eq_zero.mp (Nat.le_zero.mp hf)
    subst hs
    cases g <;> rfl
  | succ f ih =>
    intro g s hf hg
    cases g with
    | zero =>
      have hs : s = [] := List.length_eq_zero.mp (Nat.le_zero.mp hg)
      subst hs
      rfl
    | succ g =>
      cases s with
      | nil => rfl
      | cons b0 rest =>
        simp only [List.length_cons, Nat.succ_le_succ_iff] at hf hg
        simp only [validAux]
        repeat' split
        all_goals
          first
          | rfl
          | (apply ih <;> simp_all <;> omega)
          | (apply congrArg; apply ih <;> simp_all <;> omega)

/-- `validString` written with any sufficiently large fuel. -/
theorem validString_eq_fuel (f : Nat) (s : GoStr) (hf : s.length ≤ f) :
    validString s = validAux f s :=
  validAux_congr s.length f s le_rfl hf

/-- Scanning a nonempty string yields at least one rune. -/
theorem runesFrom_ne_nil (pos b0 : Nat) (rest : GoStr) :
    runesFrom pos (b0 :: rest) ≠ [] := by
  simp only [runesFrom, List.length_cons, runesAux]
  repeat' split
  all_goals simp

/-- The first rune of a scan carries the starting byte position. -/
theorem runesFrom_head_pos (pos b0 : Nat) (rest : GoStr) (t : Nat × Nat)
    (h : (runesFrom pos (b0 :: rest)).head? = some t) : t.1 = pos := by
  revert h
  simp only [runesFrom, List.length_cons, runesAux]
  repeat' split
  all_goals
    intro h
    rw [List.head?_cons, Option.some_inj] at h
    exact h ▸ rfl

/-- Successful slicing decomposes the input as take/drop. -/
theorem sliceAt_ok (input v r : GoStr) (i : Int) (h : sliceAt input i = .ok v r) :
    v = input.take i.toNat ∧ r = input.drop i.toNat := by
  unfold sliceAt at h
  split at h
  · exact ⟨(PResult.ok.injEq _ _ _ _ ▸ h).1.symm, (PResult.ok.injEq _ _ _ _ ▸ h).2.symm⟩
  · exact absurd h (by simp)

/-- Successful slicing reconstructs the input and leaves a suffix. -/
theorem sliceAt_ok_reconstruct (input v r : GoStr) (i : Int)
    (h : sliceAt input i = .ok v r) : v ++ r = input ∧ r <:+ input := by
  obtain ⟨hv, hr⟩ := sliceAt_ok input v r i h
  subst hv hr
  exact ⟨List.take_append_drop _ _, List.drop_suffix _ _⟩

/-- `indexOfAux` only returns indices at or beyond its starting offset. -/
theorem indexOfAux_mono (pat : GoStr) :
    ∀ s i j, indexOfAux pat s i = some j → i ≤ j := by
  intro s
  induction s with
  | nil =>
    intro i j h
    unfold indexOfAux at h
    split at h
    · simp at h; omega
    · simp at h
  | cons c rest ih =>
    intro i j h
    unfold indexOfAux at h
    split at h
    · simp at h; omega
    · exact Nat.le_of_succ_le (ih (i + 1) j h)

/-- A one-byte (ASCII) sequence has RuneLen 1. -/
theorem runeLen_one (b0 : Nat) (h : b0 < 0x80) : runeLen b0 = 1 := by
  unfold runeLen
  split_ifs <;> omega

/-- A decoded two-byte sequence has RuneLen 2. -/
theorem runeLen_two (b0 b1 : Nat) (h0 : 0xC2 ≤ b0) (h0' : b0 ≤ 0xDF) (h1 : isCont b1 = true) :
    runeLen ((b0 % 0x20) * 0x40 + b1 % 0x40) = 2 := by
  simp only [isCont, Bool.and_eq_true, decide_eq_true_eq] at h1
  unfold runeLen
  split_ifs <;> omega

/-- A decoded three-byte sequence has RuneLen 3 (accept1 rules out
overlongs and surrogates). -/
theorem runeLen_three (b0 b1 b2 : Nat) (h0 : 0xE0 ≤ b0) (h0' : b0 ≤ 0xEF)
    (h1 : accept1 b0 b1 = true) (h2 : isCont b2 = true) :
    runeLen ((b0 % 0x10) * 0x1000 + (b1 % 0x40) * 0x40 + b2 % 0x40) = 3 := by
  simp only [isCont, Bool.and_eq_true, decide_eq_true_eq] at h2
  unfold accept1 at h1
  split_ifs at h1
  all_goals simp only [beq_iff_eq, isCont, Bool.and_eq_true, decide_eq_true_eq] at *
  all_goals (unfold runeLen; split_ifs <;> omega)

/-- A decoded four-byte sequence has RuneLen 4 (accept1 rules out
overlongs and code points above U+10FFFF). -/
theorem runeLen_four (b0 b1 b2 b3 : Nat) (h0 : 0xF0 ≤ b0) (h0' : b0 ≤ 0xF4)
    (h1 : accept1 b0 b1 = true) (h2 : isCont b2 = true) (h3 : isCont b3 = true) :
    runeLen ((b0 % 8) * 0x40000 + (b1 % 0x40) * 0x1000 + (b2 % 0x40) * 0x40 + b3 % 0x40) = 4 := by
  simp only [isCont, Bool.and_eq_true, decide_eq_true_eq] at h2 h3
  unfold accept1 at h1
  split_ifs at h1
  all_goals simp only [beq_iff_eq, isCont, Bool.and_eq_true, decide_eq_true_eq] at *
  all_goals (unfold runeLen; split_ifs <;> omega)

/-- A valid nonempty string starts with one complete UTF-8 sequence of
some width w encoding a rune r with RuneLen r = w; that leading sequence
is transparent to both validation and scanning of whatever follows it. -/
theorem valid_step (b0 : Nat) (rest : GoStr) (hv : validString (b0 :: rest) = true) :
    ∃ w r, 1 ≤ w ∧ w ≤ (b0 :: rest).length ∧ runeLen r = (w : Int) ∧
      validString ((b0 :: rest).drop w) = true ∧
      (∀ z, validString ((b0 :: rest).take w ++ z) = validString z) ∧
      (∀ pos y, runesFrom pos ((b0 :: rest).take w ++ y) = (pos, r) :: runesFrom (pos + w) y) := by
  rw [validString_eq_fuel (rest.length + 1) _ (by simp)] at hv
  simp only [validAux] at hv
  split_ifs at hv with h1 h2 h3 h4
  · -- ASCII byte
    rw [← validString_eq_fuel rest.length rest le_rfl] at hv
    refine ⟨1, b0, le_rfl, by simp, runeLen_one b0 h1, by simpa, ?_, ?_⟩
    · intro z
      simp only [List.take_succ_cons, List.take_zero, List.cons_append, List.nil_append]
      rw [validString_eq_fuel (z.length + 1) _ (by simp)]
      simp only [validAux, if_pos h1]
      exact (validString_eq_fuel z.length z le_rfl).symm
    · intro pos y
      simp only [List.take_succ_cons, List.take_zero, List.cons_append, List.nil_append]
      rw [runesFrom_eq_fuel (y.length + 1) pos (b0 :: y) (by simp)]
      simp only [runesAux, if_pos h1]
      rw [← runesFrom_eq_fuel y.length (pos + 1) y le_rfl]
  · -- two-byte sequence, lead C2..DF
    simp only [Bool.and_eq_true, decide_eq_true_eq] at h2
    rcases rest with _ | ⟨b1, rest2⟩
    · exact absurd hv (by simp)
    · simp only [Bool.and_eq_true, List.length_cons] at hv
      obtain ⟨hc1, hv2⟩ := hv
      rw [← validString_eq_fuel (rest2.length + 1) rest2 (by omega)] at hv2
      refine ⟨2, (b0 % 0x20) * 0x40 + b1 % 0x40, by omega, by simp,
        runeLen_two b0 b1 h2.1 h2.2 hc1, by simpa, ?_, ?_⟩
      · intro z
        simp only [List.take_succ_cons, List.take_zero, List.cons_append, List.nil_append]
        rw [validString_eq_fuel (z.length + 1 + 1) _ (by simp)]
        simp only [validAux, if_neg h1]
        rw [if_pos (by simp [h2.1, h2.2] : (decide (0xC2 ≤ b0) && decide (b0 ≤ 0xDF)) = true)]
        simp only [hc1, Bool.true_and]
        exact (validString_eq_fuel (z.length + 1) z (by omega)).symm
      · intro pos y
        simp only [List.take_succ_cons, List.take_zero, List.cons_append, List.nil_append]
        rw [runesFrom_eq_fuel (y.length + 1 + 1) pos (b0 :: b1 :: y) (by simp)]
        simp only [runesAux, if_neg h1]
        rw [if_pos (by simp [h2.1, h2.2] : (decide (0xC2 ≤ b0) && decide (b0 ≤ 0xDF)) = true)]
        simp only [hc1, if_pos]
        rw [← runesFrom_eq_fuel (y.length + 1) (pos + 2) y (by omega)]
  · -- three-byte sequence, lead E0..EF
    simp only [Bool.and_eq_true, decide_eq_true_eq] at h3
    rcases rest with _ | ⟨b1, _ | ⟨b2, rest3⟩⟩
    · exact absurd hv (by simp)
    · exact absurd hv (by simp)
    · simp only [Bool.and_eq_true, List.length_cons] at hv
      obtain ⟨⟨ha1, hc2⟩, hv3⟩ := hv
      rw [← validString_eq_fuel (rest3.length + 1 + 1) rest3 (by omega)] at hv3
      refine ⟨3, (b0 % 0x10) * 0x1000 + (b1 % 0x40) * 0x40 + b2 % 0x40, by omega, by simp,
        runeLen_three b0 b1 b2 h3.1 h3.2 ha1 hc2, by simpa, ?_, ?_⟩
      · intro z
        simp only [List.take_succ_cons, List.take_zero, List.cons_append, List.nil_append]
        rw [validString_eq_fuel (z.length + 1 + 1 + 1) _ (by simp)]
        simp only [validAux, if_neg h1]
        rw [if_neg (by simp; omega : ¬ (decide (0xC2 ≤ b0) && decide (b0 ≤ 0xDF)) = true)]
        rw [if_pos (by simp [h3.1, h3.2] : (decide (0xE0 ≤ b0) && decide (b0 ≤ 0xEF)) = true)]
        simp only [ha1, hc2, Bool.true_and]
        exact (validString_eq_fuel (z.length + 1 + 1) z (by omega)).symm
      · intro pos y
        simp only [List.take_succ_cons, List.take_zero, List.cons_append, List.nil_append]
        rw [runesFrom_eq_fuel (y.length + 1 + 1 + 1) pos (b0 :: b1 :: b2 :: y) (by simp)]
        simp only [runesAux, if_neg h1]
        rw [if_neg (by simp; omega : ¬ (decide (0xC2 ≤ b0) && decide (b0 ≤ 0xDF)) = true)]
        rw [if_pos (by simp [h3.1, h3.2] : (decide (0xE0 ≤ b0) && decide (b0 ≤ 0xEF)) = true)]
        simp only [ha1, hc2, Bool.and_self, if_pos]
        rw [← runesFrom_eq_fuel (y.length + 1 + 1) (pos + 3) y (by omega)]
  · -- four-byte sequence, lead F0..F4
    simp only [Bool.and_eq_true, decide_eq_true_eq] at h4
    rcases rest with _ | ⟨b1, _ | ⟨b2, _ | ⟨b3, rest4⟩⟩⟩
    · exact absurd hv (by simp)
    · exact absurd hv (by simp)
    · exact absurd hv (by simp)
    · simp only [Bool.and_eq_true, List.length_cons] at hv
      obtain ⟨⟨⟨ha1, hc2⟩, hc3⟩, hv4⟩ := hv
      rw [← validString_eq_fuel (rest4.length + 1 + 1 + 1) rest4 (by omega)] at hv4
      refine ⟨4, (b0 % 8) * 0x40000 + (b1 % 0x40) * 0x1000 + (b2 % 0x40) * 0x40 + b3 % 0x40,
        by omega, by simp, runeLen_four b0 b1 b2 b3 h4.1 h4.2 ha1 hc2 hc3, by simpa, ?_, ?_⟩
      · intro z
        simp only [List.take_succ_cons, List.take_zero, List.cons_append, List.nil_append]
        rw [validString_eq_fuel (z.length + 1 + 1 + 1 + 1) _ (by simp)]
        simp only [validAux, if_neg h1]
        rw [if_neg (by simp; omega : ¬ (decide (0xC2 ≤ b0) && decide (b0 ≤ 0xDF)) = true)]
        rw [if_neg (by simp; omega : ¬ (decide (0xE0 ≤ b0) && decide (b0 ≤ 0xEF)) = true)]
        rw [if_pos (by simp [h4.1, h4.2] : (decide (0xF0 ≤ b0) && decide (b0 ≤ 0xF4)) = true)]
        simp only [ha1, hc2, hc3, Bool.true_and]
        exact (validString_eq_fuel (z.length + 1 + 1 + 1) z (by omega)).symm
      · intro pos y
        simp only [List.take_succ_cons, List.take_zero, List.cons_append, List.nil_append]
        rw [runesFrom_eq_fuel (y.length + 1 + 1 + 1 + 1) pos (b0 :: b1 :: b2 :: b3 :: y) (by simp)]
        simp only [runesAux, if_neg h1]
        rw [if_neg (by simp; omega : ¬ (decide (0xC2 ≤ b0) && decide (b0 ≤ 0xDF)) = true)]
        rw [if_neg (by simp; omega : ¬ (decide (0xE0 ≤ b0) && decide (b0 ≤ 0xEF)) = true)]
        rw [if_pos (by simp [h4.1, h4.2] : (decide (0xF0 ≤ b0) && decide (b0 ≤ 0xF4)) = true)]
        simp only [ha1, hc2, hc3, Bool.and_self, if_pos]
        rw [← runesFrom_eq_fuel (y.length + 1 + 1 + 1) (pos + 4) y (by omega)]

/-- Valid strings are closed under concatenation. -/
theorem validString_append_fuel :
    ∀ n x y, x.length ≤ n → validString x = true → validString y = true →
      validString (x ++ y) = true := by
  intro n
  induction n with
  | zero =>
    intro x y h hx hy
    have hn : x = [] := List.length_eq_zero.mp (Nat.le_zero.mp h)
    subst hn
    simpa
  | succ n ih =>
    intro x y hlen hx hy
    match x with
    | [] => simpa
    | b0 :: rest =>
      obtain ⟨w, r, hw1, hwle, _, hDrop, hStep, _⟩ := valid_step b0 rest hx
      have hsplit : (b0 :: rest) ++ y = (b0 :: rest).take w ++ ((b0 :: rest).drop w ++ y) := by
        rw [← List.append_assoc, List.take_append_drop]
      rw [hsplit, hStep]
      refine ih _ y ?_ hDrop hy
      have hd : ((b0 :: rest).drop w).length = (b0 :: rest).length - w :=
        List.length_drop _ _
      simp only [List.length_cons] at hlen hd ⊢
      omega

/-- Valid strings are closed under concatenation. -/
theorem validString_append (x y : GoStr) (hx : validString x = true)
    (hy : validString y = true) : validString (x ++ y) = true :=
  validString_append_fuel x.length x y le_rfl hx hy

/-- Scanning the empty string yields no runes. -/
theorem runesFrom_nil (pos : Nat) : runesFrom pos [] = [] := rfl

/-- An empty scan comes only from the empty string. -/
theorem eq_nil_of_runesFrom_eq_nil (pos : Nat) (s : GoStr)
    (h : runesFrom pos s = []) : s = [] := by
  cases s with
  | nil => rfl
  | cons b0 rest => exact absurd h (runesFrom_ne_nil pos b0 rest)

/-- A valid string scans as one rune followed by the scan of the rest. -/
theorem valid_cons_runes (b0 : Nat) (rest : GoStr)
    (hv : validString (b0 :: rest) = true) :
    ∃ w r, 1 ≤ w ∧ w ≤ (b0 :: rest).length ∧ runeLen r = (w : Int) ∧
      validString ((b0 :: rest).drop w) = true ∧
      (∀ pos, runesFrom pos (b0 :: rest) =
        (pos, r) :: runesFrom (pos + w) ((b0 :: rest).drop w)) := by
  obtain ⟨w, r, hw1, hwle, hrl, hdrop, _, hRunes⟩ := valid_step b0 rest hv
  refine ⟨w, r, hw1, hwle, hrl, hdrop, fun pos => ?_⟩
  have := hRunes pos ((b0 :: rest).drop w)
  rwa [List.take_append_drop] at this

/-- Boundary structure of a valid string's rune scan: the k-th rune sits
at byte offset `b` past the scan's starting position, its encoding spans
`w = RuneLen` bytes ending inside the string; the byte prefixes ending at
its start and at its end are themselves valid and scan to exactly the
first k (resp. k + 1) runes; and the last rune ends exactly at the end of
the string. -/
theorem runes_boundary_fuel :
    ∀ n s, s.length ≤ n → validString s = true →
    ∀ k pos t, (runesFrom pos s).get? k = some t →
      ∃ (b w : Nat), t.1 = pos + b ∧ runeLen t.2 = (w : Int) ∧ 1 ≤ w ∧ b + w ≤ s.length ∧
        validString (s.take b) = true ∧
        validString (s.take (b + w)) = true ∧
        validString (s.drop b) = true ∧
        validString (s.drop (b + w)) = true ∧
        runesFrom pos (s.take b) = (runesFrom pos s).take k ∧
        runesFrom pos (s.take (b + w)) = (runesFrom pos s).take (k + 1) ∧
        (k + 1 = (runesFrom pos s).length → b + w = s.length) := by
  intro n
  induction n with
  | zero =>
    intro s hsn _ k pos t hget
    have hs : s = [] := List.length_eq_zero.mp (Nat.le_zero.mp hsn)
    subst hs
    simp [runesFrom_nil] at hget
  | succ n ihn =>
    intro s hsn hv k pos t hget
    match s, hv with
    | [], _ => simp [runesFrom_nil] at hget
    | b0 :: rest, hv =>
    obtain ⟨w0, r0, hw01, hw0le, hrl0, hdrop0, hStep0, hRunes0⟩ := valid_step b0 rest hv
    have hcons : runesFrom pos (b0 :: rest) =
        (pos, r0) :: runesFrom (pos + w0) ((b0 :: rest).drop w0) := by
      have := hRunes0 pos ((b0 :: rest).drop w0)
      rwa [List.take_append_drop] at this
    cases k with
    | zero =>
      rw [hcons] at hget
      simp only [List.get?_cons_zero, Option.some_inj] at hget
      subst hget
      refine ⟨0, w0, by omega, hrl0, hw01, by simpa using hw0le, rfl, ?_, by simpa,
        by simpa using hdrop0, ?_, ?_, ?_⟩
      · have := hStep0 []
        simpa using this
      · simp [runesFrom_nil, hcons]
      · have h1 : runesFrom pos ((b0 :: rest).take (0 + w0)) = [(pos, r0)] := by
          have := hRunes0 pos []
          simpa using this
        rw [h1, hcons]
        simp
      · intro hlen
        rw [hcons] at hlen
        simp only [List.length_cons, Nat.succ_inj] at hlen
        have h2 : runesFrom (pos + w0) ((b0 :: rest).drop w0) = [] :=
          List.length_eq_zero.mp hlen.symm
        have hde : (b0 :: rest).drop w0 = [] := eq_nil_of_runesFrom_eq_nil _ _ h2
        have h3 : (b0 :: rest).length - w0 = 0 := by
          rw [← List.length_drop, hde]
          rfl
        omega
    | succ k =>
      rw [hcons] at hget
      simp only [List.get?_cons_succ] at hget
      have hlen2 : ((b0 :: rest).drop w0).length ≤ n := by
        rw [List.length_drop]
        simp only [List.length_cons] at hsn ⊢
        omega
      obtain ⟨b', w', ht1, hrl', hw'1, hbw', hvb', hvbw', hvd', hvdw', hrb', hrbw', hlast'⟩ :=
        ihn _ hlen2 hdrop0 k (pos + w0) t hget
      refine ⟨w0 + b', w', by rw [ht1]; omega, hrl', hw'1, ?_, ?_, ?_, ?_, ?_, ?_, ?_, ?_⟩
      · have := List.length_drop w0 (b0 :: rest)
        omega
      · rw [List.take_add, hStep0 _]
        exact hvb'
      · have he : w0 + b' + w' = w0 + (b' + w') := by omega
        rw [he, List.take_add, hStep0 _]
        exact hvbw'
      · have he : (b0 :: rest).drop (w0 + b') = ((b0 :: rest).drop w0).drop b' := by
          rw [List.drop_drop]
        rw [he]
        exact hvd'
      · have he : (b0 :: rest).drop (w0 + b' + w') = ((b0 :: rest).drop w0).drop (b' + w') := by
          rw [List.drop_drop]
          congr 1
          omega
        rw [he]
        exact hvdw'
      · rw [List.take_add, hRunes0, hrb', hcons]
        rfl
      · have he : w0 + b' + w' = w0 + (b' + w') := by omega
        rw [he, List.take_add, hRunes0, hrbw', hcons]
        rfl
      · intro hlen
        rw [hcons] at hlen
        simp only [List.length_cons, Nat.succ_inj] at hlen
        have h4 := hlast' hlen
        have h5 := List.length_drop w0 (b0 :: rest)
        omega

/-- Boundary structure of a valid string's rune scan (see
`runes_boundary_fuel`). -/
theorem runes_boundary (s : GoStr) (hv : validString s = true)
    (k pos : Nat) (t : Nat × Nat) (hget : (runesFrom pos s).get? k = some t) :
    ∃ (b w : Nat), t.1 = pos + b ∧ runeLen t.2 = (w : Int) ∧ 1 ≤ w ∧ b + w ≤ s.length ∧
      validString (s.take b) = true ∧
      validString (s.take (b + w)) = true ∧
      validString (s.drop b) = true ∧
      validString (s.drop (b + w)) = true ∧
      runesFrom pos (s.take b) = (runesFrom pos s).take k ∧
      runesFrom pos (s.take (b + w)) = (runesFrom pos s).take (k + 1) ∧
      (k + 1 = (runesFrom pos s).length → b + w = s.length) :=
  runes_boundary_fuel s.length s le_rfl hv k pos t hget

section ListLemmas

variable {α : Type}

/-- The element `find?` returns sits right after the run of elements
failing the search predicate. -/
theorem find_at_run_length (Q : α → Bool) :
    ∀ (l : List α) t, l.find? Q = some t →
      l.get? (l.takeWhile (fun x => !(Q x))).length = some t ∧ Q t = true ∧
        ∀ u ∈ l.takeWhile (fun x => !(Q x)), Q u = false := by
  intro l
  induction l with
  | nil => intro t h; simp [List.find?] at h
  | cons a l ih =>
    intro t h
    rw [List.find?_cons] at h
    by_cases ha : Q a
    · simp only [ha] at h
      simp only [Option.some_inj] at h
      subst h
      simp [List.takeWhile_cons, ha]
    · have ha' : Q a = false := by simpa using ha
      simp only [ha'] at h
      obtain ⟨h1, h2, h3⟩ := ih t h
      refine ⟨?_, h2, ?_⟩
      · simpa [List.takeWhile_cons, ha'] using h1
      · intro u hu
        rw [List.takeWhile_cons] at hu
        rw [if_pos (by simp [ha'])] at hu
        rcases List.mem_cons.mp hu with rfl | hu
        · exact ha'
        · exact h3 u hu

/-- Taking as many elements as the `takeWhile` run recovers the run. -/
theorem take_run_length (P : α → Bool) :
    ∀ l : List α, l.take (l.takeWhile P).length = l.takeWhile P := by
  intro l
  induction l with
  | nil => rfl
  | cons a l ih =>
    rw [List.takeWhile_cons]
    by_cases ha : P a
    · simp [ha, ih]
    · simp [ha]

/-- If every element satisfies the predicate the run is everything. -/
theorem takeWhile_all (P : α → Bool) :
    ∀ l : List α, (∀ u ∈ l, P u = true) → l.takeWhile P = l := by
  intro l
  induction l with
  | nil => intro _; rfl
  | cons a l ih =>
    intro h
    rw [List.takeWhile_cons, if_pos (h a (by simp))]
    rw [ih fun u hu => h u (by simp [hu])]

/-- A prefix agrees with the whole list at every index it covers. -/
theorem get?_of_take (l : List α) (n k : Nat) (hk : k < n) :
    (l.take n).get? k = l.get? k :=
  List.get?_take hk

end ListLemmas

/-- The TakeWhile loop breaks at the first rune failing the predicate,
returning that rune's byte position. -/
theorem takeWhileLoop_break (p : Nat → Bool) :
    ∀ (l : List (Nat × Nat)) (e0 : Nat) t, l.find? (fun u => !(p u.2)) = some t →
      takeWhileLoop p e0 l = (t.1, true) := by
  intro l
  induction l with
  | nil => intro e0 t h; simp [List.find?] at h
  | cons a l ih =>
    intro e0 t h
    rw [List.find?_cons] at h
    by_cases ha : p a.2
    · simp only [ha, Bool.not_true] at h
      simpa [takeWhileLoop, ha] using ih a.1 t h
    · have ha' : p a.2 = false := by simpa using ha
      simp only [ha', Bool.not_false, Option.some_inj] at h
      subst h
      simp [takeWhileLoop, ha']

/-- If no rune fails the predicate, the TakeWhile loop never breaks. -/
theorem takeWhileLoop_nobreak (p : Nat → Bool) :
    ∀ (l : List (Nat × Nat)) (e0 : Nat), l.find? (fun u => !(p u.2)) = none →
      (takeWhileLoop p e0 l).2 = false := by
  intro l
  induction l with
  | nil => intro e0 _; rfl
  | cons a l ih =>
    intro e0 h
    rw [List.find?_cons] at h
    by_cases ha : p a.2
    · simp only [ha, Bool.not_true] at h
      simpa [takeWhileLoop, ha] using ih a.1 h
    · have ha' : p a.2 = false := by simpa using ha
      simp only [ha', Bool.not_false] at h
      simp at h

/-- The TakeUntil loop breaks at the first rune satisfying the predicate. -/
theorem takeUntilLoop_break (p : Nat → Bool) :
    ∀ (l : List (Nat × Nat)) (e0 : Nat) t, l.find? (fun u => p u.2) = some t →
      takeUntilLoop p e0 l = (t.1, true) := by
  intro l
  induction l with
  | nil => intro e0 t h; simp [List.find?] at h
  | cons a l ih =>
    intro e0 t h
    rw [List.find?_cons] at h
    by_cases ha : p a.2
    · simp only [ha, Option.some_inj] at h
      subst h
      simp [takeUntilLoop, ha]
    · have ha' : p a.2 = false := by simpa using ha
      simp only [ha'] at h
      simpa [takeUntilLoop, ha'] using ih a.1 t h

/-- If no rune satisfies the predicate, the TakeUntil loop never breaks. -/
theorem takeUntilLoop_nobreak (p : Nat → Bool) :
    ∀ (l : List (Nat × Nat)) (e0 : Nat), l.find? (fun u => p u.2) = none →
      (takeUntilLoop p e0 l).2 = false := by
  intro l
  induction l with
  | nil => intro e0 _; rfl
  | cons a l ih =>
    intro e0 h
    rw [List.find?_cons] at h
    by_cases ha : p a.2
    · simp only [ha] at h
      simp at h
    · have ha' : p a.2 = false := by simpa using ha
      simp only [ha'] at h
      simpa [takeUntilLoop, ha'] using ih a.1 h

/-- The Take loop hits its count at the rune with the right index and
returns that rune's byte end. -/
theorem takeLoop_hit (n : Int) :
    ∀ (l : List (Nat × Nat)) (count k : Nat) t,
      (count : Int) + (k : Int) + 1 = n → l.get? k = some t →
      takeLoop n count l = .inr ((t.1 : Int) + runeLen t.2) := by
  intro l
  induction l with
  | nil => intro count k t _ h; simp at h
  | cons a l ih =>
    intro count k t hn hget
    cases k with
    | zero =>
      simp only [List.get?_cons_zero, Option.some_inj] at hget
      subst hget
      simp only [takeLoop]
      rw [if_pos (by omega)]
    | succ k =>
      simp only [List.get?_cons_succ] at hget
      simp only [takeLoop]
      rw [if_neg (by omega)]
      exact ih (count + 1) k t (by push_cast at hn ⊢; omega) hget

/-- When the input has fewer runes than requested, the Take loop falls
through and reports the total rune count. -/
theorem takeLoop_miss (n : Int) :
    ∀ (l : List (Nat × Nat)) (count : Nat),
      (count : Int) + (l.length : Int) < n → takeLoop n count l = .inl (count + l.length) := by
  intro l
  induction l with
  | nil => intro count _; simp [takeLoop]
  | cons a l ih =>
    intro count h
    simp only [List.length_cons] at h
    simp only [takeLoop]
    rw [if_neg (by push_cast at h ⊢; omega)]
    rw [ih (count + 1) (by push_cast at h ⊢; omega)]
    simp only [List.length_cons, Sum.inl.injEq]
    omega

/-- The TakeWhileBetween index loop returns the byte end of the last rune
of the leading predicate-true run, or its initial value when that run is
empty. -/
theorem twbIndexLoop_eq (p : Nat → Bool) :
    ∀ (l : List (Nat × Nat)) (idx : Int),
      twbIndexLoop p idx l =
        match (l.takeWhile (fun u => p u.2)).getLast? with
        | none => idx
        | some t => (t.1 : Int) + runeLen t.2 := by
  intro l
  induction l with
  | nil => intro idx; rfl
  | cons a l ih =>
    intro idx
    by_cases ha : p a.2
    · rw [List.takeWhile_cons, if_pos (by simp [ha])]
      simp only [twbIndexLoop, ha, Bool.not_true, Bool.false_eq_true, if_neg, ite_false]
      rw [ih ((a.1 : Int) + runeLen a.2)]
      cases hxs : l.takeWhile (fun u => p u.2) with
      | nil => simp
      | cons v xs =>
        rw [List.getLast?_cons_cons]
        cases hg : (v :: xs).getLast? with
        | none => simp at hg
        | some u => rfl
    · rw [List.takeWhile_cons, if_neg (by simp [ha])]
      simp [twbIndexLoop, ha]

/-- The TakeWhileBetween truncation loop leaves its accumulator untouched
once the running count is at or past upper, or when the list is too short
to reach upper. -/
theorem twbCutLoop_miss (upper : Int) :
    ∀ (l : List (Nat × Nat)) (count : Nat) (cut : Int),
      (upper ≤ (count : Int) ∨ (count : Int) + (l.length : Int) < upper) →
      twbCutLoop upper count cut l = cut := by
  intro l
  induction l with
  | nil => intro count cut _; rfl
  | cons a l ih =>
    intro count cut h
    simp only [List.length_cons] at h
    simp only [twbCutLoop]
    rw [if_neg (by push_cast at h ⊢; omega)]
    exact ih (count + 1) cut (by push_cast at h ⊢; omega)

/-- The TakeWhileBetween truncation loop records the byte end of the rune
at index upper - count - 1 (the upper-th rune counted from count). -/
theorem twbCutLoop_hit (upper : Int) :
    ∀ (l : List (Nat × Nat)) (count : Nat) (cut : Int) (k : Nat) t,
      (count : Int) + (k : Int) + 1 = upper → l.get? k = some t →
      twbCutLoop upper count cut l = (t.1 : Int) + runeLen t.2 := by
  intro l
  induction l with
  | nil => intro count cut k t _ h; simp at h
  | cons a l ih =>
    intro count cut k t hn hget
    cases k with
    | zero =>
      simp only [List.get?_cons_zero, Option.some_inj] at hget
      subst hget
      simp only [twbCutLoop]
      rw [if_pos (by omega)]
      exact twbCutLoop_miss upper l (count + 1) _ (by push_cast; omega)
    | succ k =>
      simp only [List.get?_cons_succ] at hget
      simp only [twbCutLoop]
      rw [if_neg (by omega)]
      exact ih (count + 1) cut k t (by push_cast at hn ⊢; omega) hget

/-- Go strings.Index returning 0 means the pattern is a prefix. -/
theorem indexOf_zero (s pat : GoStr) (h : indexOf s pat = 0) :
    pat <+: s := by
  unfold indexOf at h
  split at h
  case h_2 => simp at h
  case h_1 i hi =>
    have hi0 : i = 0 := by exact_mod_cast h
    subst hi0
    rw [List.isPrefixOf_iff_prefix.symm]
    revert hi
    unfold indexOfAux
    split
    · intro _; assumption
    · intro hi
      exfalso
      match s with
      | [] => simp at hi
      | c :: rest => exact absurd (indexOfAux_mono pat rest 1 0 hi) (by omega)

/- ------------------------------------------------------------------
Claim theorems.
------------------------------------------------------------------ -/

/-- Claim C1: for every primitive string-returning parser (Take, Exact,
ExactCaseInsensitive, Char, TakeWhile, TakeUntil, TakeWhileBetween,
TakeTo, OneOf, NoneOf, AnyOf, NotAnyOf) and every input, if the parser
succeeds then the value's bytes concatenated with the remainder's bytes
reconstruct the original input byte-for-byte, and the remainder is a
suffix of the input; in particular for Exact, whose returned value is the
match argument rather than a slice of the input. -/
theorem C1_reconstruction :
    (∀ (n : Int) (input v rem : GoStr), Take n input = .ok v rem →
      v ++ rem = input ∧ rem <:+ input) ∧
    (∀ (m input v rem : GoStr), Exact m input = .ok v rem →
      v = m ∧ v ++ rem = input ∧ rem <:+ input) ∧
    (∀ (m input v rem : GoStr), ExactCaseInsensitive m input = .ok v rem →
      v ++ rem = input ∧ rem <:+ input) ∧
    (∀ (c : Nat) (input v rem : GoStr), Char c input = .ok v rem →
      v ++ rem = input ∧ rem <:+ input) ∧
    (∀ (p : Option (Nat → Bool)) (input v rem : GoStr), TakeWhile p input = .ok v rem →
      v ++ rem = input ∧ rem <:+ input) ∧
    (∀ (p : Option (Nat → Bool)) (input v rem : GoStr), TakeUntil p input = .ok v rem →
      v ++ rem = input ∧ rem <:+ input) ∧
    (∀ (lower upper : Int) (p : Option (Nat → Bool)) (input v rem : GoStr),
      TakeWhileBetween lower upper p input = .ok v rem →
      v ++ rem = input ∧ rem <:+ input) ∧
    (∀ (m input v rem : GoStr), TakeTo m input = .ok v rem →
      v ++ rem = input ∧ rem <:+ input) ∧
    (∀ (chars input v rem : GoStr), OneOf chars input = .ok v rem →
      v ++ rem = input ∧ rem <:+ input) ∧
    (∀ (chars input v rem : GoStr), NoneOf chars input = .ok v rem →
      v ++ rem = input ∧ rem <:+ input) ∧
    (∀ (chars input v rem : GoStr), AnyOf chars input = .ok v rem →
      v ++ rem = input ∧ rem <:+ input) ∧
    (∀ (chars input v rem : GoStr), NotAnyOf chars input = .ok v rem →
      v ++ rem = input ∧ rem <:+ input) := by
  refine ⟨?_, ?_, ?_, ?_, ?_, ?_, ?_, ?_, ?_, ?_, ?_, ?_⟩
  · intro n input v rem h
    simp only [Take] at h
    repeat' split at h
    all_goals
      first
      | (exact sliceAt_ok_reconstruct _ _ _ _ h)
      | simp at h
  · intro m input v rem h
    simp only [Exact] at h
    split at h
    · simp at h
    split at h
    · simp at h
    split at h
    · simp at h
    split at h
    · simp at h
    split at h
    case isTrue hle =>
      rw [PResult.ok.injEq] at h
      obtain ⟨rfl, rfl⟩ := h
      next hne hvalid hm hidx =>
        have hpre : m <+: input := indexOf_zero input m (by
          by_contra hc
          exact hidx (fun he => hc he))
        obtain ⟨t, ht⟩ := hpre
        have hdrop : input.drop m.length = t := by
          rw [← ht, List.drop_left]
        refine ⟨rfl, ?_, List.drop_suffix _ _⟩
        rw [hdrop, ht]
    case isFalse => simp at h
  · intro m input v rem h
    simp only [ExactCaseInsensitive] at h
    repeat' split at h
    all_goals
      first
      | (rw [PResult.ok.injEq] at h
         obtain ⟨rfl, rfl⟩ := h
         exact ⟨List.take_append_drop _ _, List.drop_suffix _ _⟩)
      | simp at h
  · intro c input v rem h
    simp only [Char] at h
    repeat' split at h
    all_goals
      first
      | (exact sliceAt_ok_reconstruct _ _ _ _ h)
      | simp at h
  · intro p input v rem h
    simp only [TakeWhile] at h
    repeat' split at h
    all_goals
      first
      | (exact sliceAt_ok_reconstruct _ _ _ _ h)
      | simp at h
  · intro p input v rem h
    simp only [TakeUntil] at h
    repeat' split at h
    all_goals
      first
      | (exact sliceAt_ok_reconstruct _ _ _ _ h)
      | simp at h
  · intro lower upper p input v rem h
    simp only [TakeWhileBetween] at h
    repeat' split at h
    all_goals
      first
      | (exact sliceAt_ok_reconstruct _ _ _ _ h)
      | simp at h
  · intro m input v rem h
    simp only [TakeTo] at h
    repeat' split at h
    all_goals
      first
      | (exact sliceAt_ok_reconstruct _ _ _ _ h)
      | simp at h
  · intro chars input v rem h
    simp only [OneOf] at h
    repeat' split at h
    all_goals
      first
      | (exact sliceAt_ok_reconstruct _ _ _ _ h)
      | simp at h
  · intro chars input v rem h
    simp only [NoneOf] at h
    repeat' split at h
    all_goals
      first
      | (exact sliceAt_ok_reconstruct _ _ _ _ h)
      | simp at h
  · intro chars input v rem h
    simp only [AnyOf] at h
    repeat' split at h
    all_goals
      first
      | (exact sliceAt_ok_reconstruct _ _ _ _ h)
      | simp at h
  · intro chars input v rem h
    simp only [NotAnyOf] at h
    repeat' split at h
    all_goals
      first
      | (exact sliceAt_ok_reconstruct _ _ _ _ h)
      | simp at h

/-- Claim C1 witness: the Take conjunct applied at Take 2 on "abc". -/
theorem C1_witness :
    ([97, 98] : GoStr) ++ [99] = [97, 98, 99] ∧ ([99] : GoStr) <:+ [97, 98, 99] :=
  C1_reconstruction.1 2 [97, 98, 99] [97, 98] [99] (by decide)


/-- Claim C2 counterexample: Char('a') applied to the malformed input
"a\\xFF" succeeds with value "a" — the claim says every operation on a
non-well-formed input yields the invalid-encoding failure and never a
success.  Char decodes only the first code point, so malformed bytes
after it go unnoticed. -/
theorem C2_counterexample :
    Char 97 [97, 0xFF] = .ok [97] [0xFF] ∧ validString [97, 0xFF] = false := by
  decide

/-- Claim C2 (amended): the nine whole-input validators (Take, Exact,
ExactCaseInsensitive, TakeWhile, TakeUntil, TakeWhileBetween, TakeTo,
AnyOf, NotAnyOf) report the invalid-encoding failure on any malformed
input once their earlier gates pass (Take checks n > 0 first, AnyOf and
NotAnyOf check the charset first); Char, OneOf and NoneOf decode only the
first code point, reporting invalid-encoding exactly when that first
decode fails, and can succeed on inputs malformed after the first code
point. -/
theorem C2_amended :
    (∀ m input, validString input = false → Exact m input = .err .exactNotUtf8) ∧
    (∀ m input, validString input = false →
      ExactCaseInsensitive m input = .err .eciNotUtf8) ∧
    (∀ p input, validString input = false → TakeWhile p input = .err .takeWhileNotUtf8) ∧
    (∀ p input, validString input = false → TakeUntil p input = .err .takeUntilNotUtf8) ∧
    (∀ lower upper p input, validString input = false →
      TakeWhileBetween lower upper p input = .err .twbNotUtf8) ∧
    (∀ m input, validString input = false → TakeTo m input = .err .takeToNotUtf8) ∧
    (∀ n input, 0 < n → validString input = false → Take n input = .err .takeNotUtf8) ∧
    (∀ chars input, chars ≠ [] → validString input = false →
      AnyOf chars input = .err .anyOfNotUtf8) ∧
    (∀ chars input, chars ≠ [] → validString input = false →
      NotAnyOf chars input = .err .notAnyOfNotUtf8) ∧
    (∀ c input, input ≠ [] → (decodeRune input).1 = runeError →
      Char c input = .err .charNotUtf8) ∧
    (∀ chars input, input ≠ [] → chars ≠ [] → (decodeRune input).1 = runeError →
      OneOf chars input = .err .oneOfNotUtf8) ∧
    (∀ chars input, input ≠ [] → chars ≠ [] → (decodeRune input).1 = runeError →
      NoneOf chars input = .err .noneOfNotUtf8) ∧
    Char 97 [97, 0xFF] = .ok [97] [0xFF] := by
  refine ⟨?_, ?_, ?_, ?_, ?_, ?_, ?_, ?_, ?_, ?_, ?_, ?_, by decide⟩
  · intro m input hv
    simp only [Exact]
    rw [if_neg (by intro he; subst he; exact absurd hv (by decide))]
    rw [if_pos (by simp [hv])]
  · intro m input hv
    simp only [ExactCaseInsensitive]
    rw [if_neg (by intro he
                   have : input = [] := List.length_eq_zero.mp he
                   subst this
                   exact absurd hv (by decide))]
    rw [if_pos (by simp [hv])]
  · intro p input hv
    simp only [TakeWhile]
    rw [if_neg (by intro he; subst he; exact absurd hv (by decide))]
    rw [if_pos (by simp [hv])]
  · intro p input hv
    simp only [TakeUntil]
    rw [if_neg (by intro he; subst he; exact absurd hv (by decide))]
    rw [if_pos (by simp [hv])]
  · intro lower upper p input hv
    simp only [TakeWhileBetween]
    rw [if_neg (by intro he; subst he; exact absurd hv (by decide))]
    rw [if_pos (by simp [hv])]
  · intro m input hv
    simp only [TakeTo]
    rw [if_neg (by intro he; subst he; exact absurd hv (by decide))]
    rw [if_pos (by simp [hv])]
  · intro n input hn hv
    simp only [Take]
    rw [if_neg (by omega)]
    rw [if_neg (by intro he; subst he; exact absurd hv (by decide))]
    rw [if_pos (by simp [hv])]
  · intro chars input hc hv
    simp only [AnyOf]
    rw [if_neg (by intro he; subst he; exact absurd hv (by decide))]
    rw [if_neg hc]
    rw [if_pos (by simp [hv])]
  · intro chars input hc hv
    simp only [NotAnyOf]
    rw [if_neg (by intro he; subst he; exact absurd hv (by decide))]
    rw [if_neg hc]
    rw [if_pos (by simp [hv])]
  · intro c input hne hr
    simp only [Char]
    rw [if_neg hne, if_pos hr]
  · intro chars input hne hc hr
    simp only [OneOf]
    rw [if_neg hne, if_neg hc, if_pos hr]
  · intro chars input hne hc hr
    simp only [NoneOf]
    rw [if_neg hne, if_neg hc, if_pos hr]

/-- Claim C2 amended witness: Exact on the malformed input "\\xFF" and
Char on "a\\xFF". -/
theorem C2_amended_witness :
    Exact [97] [0xFF] = .err .exactNotUtf8 ∧
    Char 97 [0xFF, 97] = .err .charNotUtf8 :=
  ⟨C2_amended.1 [97] [0xFF] (by decide),
    C2_amended.2.2.2.2.2.2.2.2.2.1 97 [0xFF, 97] (by decide) (by decide)⟩

/-- Claim C5 (code bug): with the valid configuration lower = 1 ≤ upper
= 2, a non-nil predicate (is the char 'a'?) and the well-formed
non-empty input "ba", the predicate fails on the first char but holds on
a later one, so the loop leaves index = -1 and the Go code slices
input[:-1]: a runtime panic, not the below-lower-limit failure promised
by the claim, by the function's documentation, and by the repo's own
test ("fuzz failure", parser_test.go). -/
theorem C5_panic :
    TakeWhileBetween 1 2 (some (fun r => r == 97)) [98, 97] = .panic ∧
    validString [98, 97] = true := by
  decide

/-- Claim C10: Char never succeeds on an input whose first code point
decodes to U+FFFD — DecodeRuneInString signals invalid encodings with the
same value, and the code tests `r == utf8.RuneError` — so a well-formed
input starting with a genuine U+FFFD is reported as invalid UTF-8, and
Char(U+FFFD) fails on every input. -/
theorem C10_char_replacement :
    (∀ (c : Nat) (input : GoStr), input ≠ [] → (decodeRune input).1 = runeError →
      Char c input = .err .charNotUtf8) ∧
    (Char runeError [0xEF, 0xBF, 0xBD] = .err .charNotUtf8 ∧
      validString [0xEF, 0xBF, 0xBD] = true ∧
      decodeRune [0xEF, 0xBF, 0xBD] = (runeError, 3)) ∧
    (∀ input : GoStr, isOk (Char runeError input) = false) := by
  refine ⟨?_, by decide, ?_⟩
  · intro c input hne hr
    simp only [Char]
    rw [if_neg hne, if_pos hr]
  · intro input
    by_cases hne : input = []
    · subst hne
      decide
    · simp only [Char]
      rw [if_neg hne]
      by_cases hr : (decodeRune input).1 = runeError
      · rw [if_pos hr]
        rfl
      · rw [if_neg hr, if_pos hr]
        rfl

/-- Claim C10 witness: the first conjunct applied to a well-formed input
starting with an encoded U+FFFD and an unrelated requested char. -/
theorem C10_witness : Char 97 [0xEF, 0xBF, 0xBD, 97] = .err .charNotUtf8 :=
  C10_char_replacement.1 97 [0xEF, 0xBF, 0xBD, 97] (by decide) (by decide)


/-- Claim C7 counterexample: with match "\u212AX" (U+212A KELVIN SIGN
followed by X, four bytes) and the well-formed input "kx" (two bytes),
the entire input — a prefix of itself — case-insensitively equals the
match under strings.EqualFold (Go folds k, K and U+212A into one case
orbit), yet ExactCaseInsensitive fails through its byte-length fast path;
this refutes "succeeds if and only if a prefix of the input
case-insensitively equals match". -/
theorem C7_counterexample :
    equalFold [0x6B, 0x78] [0xE2, 0x84, 0xAA, 0x58] = true ∧
    ([0x6B, 0x78] : GoStr) <+: [0x6B, 0x78] ∧
    validString [0x6B, 0x78] = true ∧
    ExactCaseInsensitive [0xE2, 0x84, 0xAA, 0x58] [0x6B, 0x78]
      = .err (.eciNoMatch [0xE2, 0x84, 0xAA, 0x58]) :=
  ⟨by decide, List.prefix_refl _, by decide, by decide⟩

/-- Claim C7 (amended): for a non-empty match and well-formed non-empty
input, ExactCaseInsensitive succeeds iff the match is no longer in bytes
than the input and the input's prefix of exactly len(match) bytes
case-insensitively equals the match (strings.EqualFold); on success the
value is that prefix in the input's own casing and the remainder is the
rest; a match longer than the remaining input is a fast-path failure;
and the spec's concrete example holds ("Found me, in a larger sentence"
against match "found me" yields value "Found me"). -/
theorem C7_amended :
    (∀ (m input : GoStr), m ≠ [] → input ≠ [] → validString input = true →
      (ExactCaseInsensitive m input = .ok (input.take m.length) (input.drop m.length) ↔
        m.length ≤ input.length ∧ equalFold (input.take m.length) m = true)) ∧
    (∀ (m input v rem : GoStr), ExactCaseInsensitive m input = .ok v rem →
      v = input.take m.length ∧ rem = input.drop m.length) ∧
    (∀ (m input : GoStr), input ≠ [] → validString input = true →
      input.length < m.length → ExactCaseInsensitive m input = .err (.eciNoMatch m)) ∧
    ExactCaseInsensitive [102, 111, 117, 110, 100, 32, 109, 101]
        [70, 111, 117, 110, 100, 32, 109, 101, 44, 32, 105, 110, 32, 97, 32, 108,
          97, 114, 103, 101, 114, 32, 115, 101, 110, 116, 101, 110, 99, 101]
      = .ok [70, 111, 117, 110, 100, 32, 109, 101]
          [44, 32, 105, 110, 32, 97, 32, 108, 97, 114, 103, 101, 114, 32, 115,
            101, 110, 116, 101, 110, 99, 101] := by
  refine ⟨?_, ?_, ?_, by decide⟩
  · intro m input hm hne hv
    have hlen0 : ¬ input.length = 0 := by simpa using hne
    have hm0 : ¬ m.length = 0 := by simpa using hm
    constructor
    · intro h
      simp only [ExactCaseInsensitive] at h
      rw [if_neg hlen0, if_neg (by simp [hv]), if_neg hm0] at h
      split at h
      · simp at h
      split at h
      · simp at h
      next hlt hef =>
        exact ⟨by omega, by simpa using hef⟩
    · intro ⟨hle, hef⟩
      simp only [ExactCaseInsensitive]
      rw [if_neg hlen0, if_neg (by simp [hv]), if_neg hm0, if_neg (by omega),
        if_neg (by simp [hef])]
  · intro m input v rem h
    simp only [ExactCaseInsensitive] at h
    repeat' split at h
    all_goals
      first
      | (rw [PResult.ok.injEq] at h
         exact ⟨h.1.symm, h.2.symm⟩)
      | simp at h
  · intro m input hne hv hlt
    simp only [ExactCaseInsensitive]
    rw [if_neg (by simpa using hne), if_neg (by simp [hv]), if_neg (by omega),
      if_pos hlt]

/-- Claim C7 amended witness: the iff applied to match "fx" and input
"FX" (ASCII case folding). -/
theorem C7_amended_witness :
    ExactCaseInsensitive [102, 120] [70, 88]
      = .ok (([70, 88] : GoStr).take 2) (([70, 88] : GoStr).drop 2) :=
  (C7_amended.1 [102, 120] [70, 88] (by decide) (by decide) (by decide)).mpr (by decide)


/-- Claim C8: for a non-nil predicate and well-formed non-empty input:
(1) when the predicate holds for every char, TakeWhile fails with the
never-returned-false error rather than consuming everything; (2) when it
fails on the very first char, TakeWhile succeeds with an empty value and
the full input as remainder; (3) in general, on finding a first
predicate-false char, TakeWhile succeeds with the longest true-prefix as
value (its runes are exactly the leading predicate-true run) and the rest,
starting at that char's byte position, as remainder. -/
theorem C8_takeWhile :
    (∀ (p : Nat → Bool) (input : GoStr), input ≠ [] → validString input = true →
      (∀ u ∈ runesFrom 0 input, p u.2 = true) →
      TakeWhile (some p) input = .err .takeWhileNeverFalse) ∧
    (∀ (p : Nat → Bool) (input : GoStr) t, input ≠ [] → validString input = true →
      (runesFrom 0 input).head? = some t → p t.2 = false →
      TakeWhile (some p) input = .ok [] input) ∧
    (∀ (p : Nat → Bool) (input : GoStr) t, validString input = true →
      (runesFrom 0 input).find? (fun u => !(p u.2)) = some t →
      TakeWhile (some p) input = .ok (input.take t.1) (input.drop t.1) ∧
        runesFrom 0 (input.take t.1)
          = (runesFrom 0 input).takeWhile (fun u => p u.2) ∧
        validString (input.take t.1) = true) := by
  refine ⟨?_, ?_, ?_⟩
  · intro p input hne hv hall
    simp only [TakeWhile]
    rw [if_neg hne, if_neg (by simp [hv])]
    have hfind : (runesFrom 0 input).find? (fun u => !(p u.2)) = none :=
      List.find?_eq_none.mpr (fun u hu => by simp [hall u hu])
    have hb := takeWhileLoop_nobreak p (runesFrom 0 input) 0 hfind
    rw [hb]
    simp
  · intro p input t hne hv hhead hp
    simp only [TakeWhile]
    rw [if_neg hne, if_neg (by simp [hv])]
    obtain ⟨b0, rest, rfl⟩ : ∃ b0 rest, input = b0 :: rest := by
      cases input with
      | nil => exact absurd rfl hne
      | cons a l => exact ⟨a, l, rfl⟩
    have hpos : t.1 = 0 := runesFrom_head_pos 0 b0 rest t hhead
    cases hL : runesFrom 0 (b0 :: rest) with
    | nil => exact absurd hL (runesFrom_ne_nil 0 b0 rest)
    | cons a L' =>
      have hat : a = t := by
        rw [hL] at hhead
        simpa using hhead
      subst hat
      have hfind : (runesFrom 0 (b0 :: rest)).find? (fun u => !(p u.2)) = some a := by
        rw [hL, List.find?_cons]
        simp [hp]
      have hb := takeWhileLoop_break p (runesFrom 0 (b0 :: rest)) 0 a hfind
      rw [hL] at hb
      rw [hb]
      simp only [hpos]
      simp [sliceAt]
      omega
  · intro p input t hv hfind
    have hQrw : (fun (u : Nat × Nat) => !(!(p u.2))) = fun u => p u.2 := by
      funext u
      simp
    obtain ⟨hget, hQ, _⟩ := find_at_run_length (fun u => !(p u.2)) (runesFrom 0 input) t hfind
    rw [hQrw] at hget
    have hne : input ≠ [] := by
      intro he
      subst he
      simp [runesFrom_nil] at hfind
    obtain ⟨b, w, ht1, hrl, hw1, hbw, hvb, _, _, _, hrb, _, _⟩ :=
      runes_boundary input hv _ 0 t hget
    simp only [Nat.zero_add] at ht1
    have hloop := takeWhileLoop_break p (runesFrom 0 input) 0 t hfind
    have hslice : sliceAt input (t.1 : Int) = .ok (input.take t.1) (input.drop t.1) := by
      unfold sliceAt
      rw [if_pos (by constructor <;> [positivity; exact_mod_cast by omega])]
      simp
    refine ⟨?_, ?_, ?_⟩
    · simp only [TakeWhile]
      rw [if_neg hne, if_neg (by simp [hv]), hloop]
      simpa using hslice
    · rw [ht1, hrb, take_run_length]
    · rw [ht1]
      exact hvb

/-- Claim C8 witness: the general conjunct applied to the ASCII-letter
predicate on "ab1c", whose leading letter run is "ab". -/
theorem C8_witness :
    TakeWhile (some asciiLetter) [97, 98, 49, 99]
        = .ok (([97, 98, 49, 99] : GoStr).take 2) (([97, 98, 49, 99] : GoStr).drop 2) ∧
      runesFrom 0 (([97, 98, 49, 99] : GoStr).take 2)
        = (runesFrom 0 [97, 98, 49, 99]).takeWhile (fun u => asciiLetter u.2) ∧
      validString (([97, 98, 49, 99] : GoStr).take 2) = true :=
  C8_takeWhile.2.2 asciiLetter [97, 98, 49, 99] (2, 49) (by decide) (by decide)


/-- Claim C9: for n > 0 and well-formed input with at least n code
points, Take(n) succeeds; the value carries exactly the first n code
points, value and remainder reconstruct the input, and both sides of the
cut are themselves valid UTF-8 (the cut never splits a multi-byte
character).  With fewer than n code points (non-empty input), it fails
stating the requested and actual counts.  Concretely, on 20 two-byte
code points, Take 19 consumes 19 of them and leaves the last. -/
theorem C9_take :
    (∀ (n : Int) (input : GoStr), 0 < n → validString input = true →
      n ≤ (runeCount input : Int) →
      ∃ v rem, Take n input = .ok v rem ∧ v ++ rem = input ∧
        (runeCount v : Int) = n ∧ validString v = true ∧ validString rem = true) ∧
    (∀ (n : Int) (input : GoStr), 0 < n → input ≠ [] → validString input = true →
      (runeCount input : Int) < n →
      Take n input = .err (.takeNotEnough n (runeCount input))) ∧
    Take 19 ((List.replicate 20 ([0xC3, 0xA9] : GoStr)).join)
      = .ok ((List.replicate 19 ([0xC3, 0xA9] : GoStr)).join) [0xC3, 0xA9] ∧
    runeCount ((List.replicate 20 ([0xC3, 0xA9] : GoStr)).join) = 20 := by
  refine ⟨?_, ?_, by decide, by decide⟩
  · intro n input hn hv hcount
    have hcount2 : n ≤ ((runesFrom 0 input).length : Int) := hcount
    have hne : input ≠ [] := by
      intro he
      subst he
      simp only [runesFrom_nil, List.length_nil, Nat.cast_zero] at hcount2
      omega
    have hk : n.toNat - 1 < (runesFrom 0 input).length := by omega
    have hget : (runesFrom 0 input).get? (n.toNat - 1)
        = some ((runesFrom 0 input).get ⟨n.toNat - 1, hk⟩) := List.get?_eq_get hk
    obtain ⟨b, w, ht1, hrl, hw1, hbw, _, hvbw, _, hvdw, _, hrbw, _⟩ :=
      runes_boundary input hv _ 0 _ hget
    simp only [Nat.zero_add] at ht1
    have hloop := takeLoop_hit n (runesFrom 0 input) 0 (n.toNat - 1) _
      (by push_cast; omega) hget
    have hslice : sliceAt input
        ((((runesFrom 0 input).get ⟨n.toNat - 1, hk⟩).1 : Int)
          + runeLen ((runesFrom 0 input).get ⟨n.toNat - 1, hk⟩).2)
        = .ok (input.take (b + w)) (input.drop (b + w)) := by
      rw [ht1, hrl]
      unfold sliceAt
      rw [if_pos (by constructor <;> omega)]
      have hbn : ((b : Int) + (w : Int)).toNat = b + w := by omega
      rw [hbn]
    refine ⟨input.take (b + w), input.drop (b + w), ?_, List.take_append_drop _ _,
      ?_, hvbw, hvdw⟩
    · simp only [Take]
      rw [if_neg (by omega), if_neg hne, if_neg (by simp [hv]), hloop]
      exact hslice
    · have hrc : runeCount (input.take (b + w))
          = ((runesFrom 0 input).take (n.toNat - 1 + 1)).length := by
        simp only [runeCount]
        rw [hrbw]
      rw [hrc, List.length_take]
      omega
  · intro n input hn hne hv hcount
    have hcount2 : ((runesFrom 0 input).length : Int) < n := hcount
    simp only [Take]
    rw [if_neg (by omega), if_neg hne, if_neg (by simp [hv])]
    have hloop := takeLoop_miss n (runesFrom 0 input) 0 (by push_cast; omega)
    simp only [hloop, Nat.zero_add]
    rw [if_pos (by push_cast; omega)]
    rfl

/-- Claim C9 witness: the too-short case applied to Take 3 on the
one-char input "a". -/
theorem C9_witness : Take 3 [97] = .err (.takeNotEnough 3 (runeCount [97])) :=
  C9_take.2.1 3 [97] (by decide) (by decide) (by decide) (by decide)


/-- Claim C4 counterexample: AnyOf("a") on the well-formed input "aa",
whose first char is in the charset and whose maximal run extends to the
very end of the input, fails with the no-match error (the loop's
`end == 0` check cannot distinguish a zero-length match from a
whole-input match); NotAnyOf("b") on "aa" fails symmetrically.  The claim
says both succeed in this situation. -/
theorem C4_counterexample :
    AnyOf [97] [97, 97] = .err (.anyOfNoMatch [97]) ∧
    validString [97, 97] = true ∧
    containsRune [97] 97 = true ∧
    NotAnyOf [98] [97, 97] = .err (.notAnyOfFound [98]) ∧
    containsRune [98] 97 = false := by
  decide

/-- Claim C4 (amended): for a non-empty charset and well-formed non-empty
input, AnyOf succeeds iff the first char is in the charset AND some later
char is not (the run stops before the end of the input); it then consumes
the maximal leading run of charset members (the value's runes are exactly
the leading member run, ending at the first non-member's byte position).
It fails when every char is in the charset (whole-input run) and when the
first char is not in the charset.  NotAnyOf behaves symmetrically with
membership negated. -/
theorem C4_amended :
    (∀ (chars input : GoStr) (t0 t : Nat × Nat), chars ≠ [] → validString input = true →
      (runesFrom 0 input).head? = some t0 → containsRune chars t0.2 = true →
      (runesFrom 0 input).find? (fun u => !(containsRune chars u.2)) = some t →
      AnyOf chars input = .ok (input.take t.1) (input.drop t.1) ∧
        runesFrom 0 (input.take t.1)
          = (runesFrom 0 input).takeWhile (fun u => containsRune chars u.2) ∧
        validString (input.take t.1) = true) ∧
    (∀ (chars input : GoStr), input ≠ [] → chars ≠ [] → validString input = true →
      (∀ u ∈ runesFrom 0 input, containsRune chars u.2 = true) →
      AnyOf chars input = .err (.anyOfNoMatch chars)) ∧
    (∀ (chars input : GoStr) (t0 : Nat × Nat), chars ≠ [] → validString input = true →
      (runesFrom 0 input).head? = some t0 → containsRune chars t0.2 = false →
      AnyOf chars input = .err (.anyOfNoMatch chars)) ∧
    (∀ (chars input : GoStr) (t0 t : Nat × Nat), chars ≠ [] → validString input = true →
      (runesFrom 0 input).head? = some t0 → containsRune chars t0.2 = false →
      (runesFrom 0 input).find? (fun u => containsRune chars u.2) = some t →
      NotAnyOf chars input = .ok (input.take t.1) (input.drop t.1) ∧
        runesFrom 0 (input.take t.1)
          = (runesFrom 0 input).takeWhile (fun u => !(containsRune chars u.2)) ∧
        validString (input.take t.1) = true) ∧
    (∀ (chars input : GoStr), input ≠ [] → chars ≠ [] → validString input = true →
      (∀ u ∈ runesFrom 0 input, containsRune chars u.2 = false) →
      NotAnyOf chars input = .err (.notAnyOfFound chars)) ∧
    (∀ (chars input : GoStr) (t0 : Nat × Nat), chars ≠ [] → validString input = true →
      (runesFrom 0 input).head? = some t0 → containsRune chars t0.2 = true →
      NotAnyOf chars input = .err (.notAnyOfFound chars)) := by
  refine ⟨?_, ?_, ?_, ?_, ?_, ?_⟩
  · intro chars input t0 t hc hv hhead hmem hfind
    have hne : input ≠ [] := by
      intro he
      subst he
      simp [runesFrom_nil] at hhead
    have hQrw : (fun (u : Nat × Nat) => !(!(containsRune chars u.2)))
        = fun u => containsRune chars u.2 := by
      funext u
      simp
    obtain ⟨hget, hQ, _⟩ :=
      find_at_run_length (fun u => !(containsRune chars u.2)) (runesFrom 0 input) t hfind
    rw [hQrw] at hget
    obtain ⟨b, w, ht1, _, hw1, hbw, hvb, _, _, _, hrb, _, _⟩ :=
      runes_boundary input hv _ 0 t hget
    simp only [Nat.zero_add] at ht1
    have hstop : ¬ t.1 = 0 := by
      intro h0
      have hb0 : b = 0 := by omega
      subst hb0
      rw [List.take_zero, runesFrom_nil] at hrb
      rcases List.take_eq_nil_iff.mp hrb.symm with hk0 | hLnil
      · rw [hk0] at hget
        rw [List.get?_zero] at hget
        rw [hget] at hhead
        simp only [Option.some_inj] at hhead
        rw [hhead] at hQ
        rw [hmem] at hQ
        simp at hQ
      · rw [hLnil] at hhead
        simp at hhead
    refine ⟨?_, ?_, ?_⟩
    · simp only [AnyOf]
      rw [if_neg hne, if_neg hc, if_neg (by simp [hv])]
      simp only [hfind]
      rw [if_neg (by omega)]
      unfold sliceAt
      rw [if_pos (by constructor <;> omega)]
      simp
    · rw [ht1, hrb]
      exact take_run_length _ _
    · rw [ht1]
      exact hvb
  · intro chars input hne hc hv hall
    simp only [AnyOf]
    rw [if_neg hne, if_neg hc, if_neg (by simp [hv])]
    have hfind : (runesFrom 0 input).find? (fun u => !(containsRune chars u.2)) = none :=
      List.find?_eq_none.mpr (fun u hu => by simp [hall u hu])
    simp only [hfind]
    rw [if_pos trivial]
  · intro chars input t0 hc hv hhead hnmem
    have hne : input ≠ [] := by
      intro he
      subst he
      simp [runesFrom_nil] at hhead
    obtain ⟨b0, rest, rfl⟩ : ∃ b0 rest, input = b0 :: rest := by
      cases input with
      | nil => exact absurd rfl hne
      | cons a l => exact ⟨a, l, rfl⟩
    have hpos : t0.1 = 0 := runesFrom_head_pos 0 b0 rest t0 hhead
    have hfind : (runesFrom 0 (b0 :: rest)).find?
        (fun u => !(containsRune chars u.2)) = some t0 := by
      cases hL : runesFrom 0 (b0 :: rest) with
      | nil => exact absurd hL (runesFrom_ne_nil 0 b0 rest)
      | cons a L' =>
        have hat : a = t0 := by
          rw [hL] at hhead
          simpa using hhead
        subst hat
        rw [List.find?_cons]
        simp [hnmem]
    simp only [AnyOf]
    rw [if_neg hne, if_neg hc, if_neg (by simp [hv])]
    simp only [hfind]
    rw [hpos]
    simp
  · intro chars input t0 t hc hv hhead hnmem hfind
    have hne : input ≠ [] := by
      intro he
      subst he
      simp [runesFrom_nil] at hhead
    obtain ⟨hget, hQ, _⟩ :=
      find_at_run_length (fun u => containsRune chars u.2) (runesFrom 0 input) t hfind
    obtain ⟨b, w, ht1, _, hw1, hbw, hvb, _, _, _, hrb, _, _⟩ :=
      runes_boundary input hv _ 0 t hget
    simp only [Nat.zero_add] at ht1
    have hstop : ¬ t.1 = 0 := by
      intro h0
      have hb0 : b = 0 := by omega
      subst hb0
      rw [List.take_zero, runesFrom_nil] at hrb
      rcases List.take_eq_nil_iff.mp hrb.symm with hk0 | hLnil
      · rw [hk0] at hget
        rw [List.get?_zero] at hget
        rw [hget] at hhead
        simp only [Option.some_inj] at hhead
        rw [hhead] at hQ
        rw [hnmem] at hQ
        simp at hQ
      · rw [hLnil] at hhead
        simp at hhead
    refine ⟨?_, ?_, ?_⟩
    · simp only [NotAnyOf]
      rw [if_neg hne, if_neg hc, if_neg (by simp [hv])]
      simp only [hfind]
      rw [if_neg (by omega)]
      unfold sliceAt
      rw [if_pos (by constructor <;> omega)]
      simp
    · rw [ht1, hrb]
      exact take_run_length _ _
    · rw [ht1]
      exact hvb
  · intro chars input hne hc hv hall
    simp only [NotAnyOf]
    rw [if_neg hne, if_neg hc, if_neg (by simp [hv])]
    have hfind : (runesFrom 0 input).find? (fun u => containsRune chars u.2) = none :=
      List.find?_eq_none.mpr (fun u hu => by simp [hall u hu])
    simp only [hfind]
    rw [if_pos trivial]
  · intro chars input t0 hc hv hhead hmem
    have hne : input ≠ [] := by
      intro he
      subst he
      simp [runesFrom_nil] at hhead
    obtain ⟨b0, rest, rfl⟩ : ∃ b0 rest, input = b0 :: rest := by
      cases input with
      | nil => exact absurd rfl hne
      | cons a l => exact ⟨a, l, rfl⟩
    have hpos : t0.1 = 0 := runesFrom_head_pos 0 b0 rest t0 hhead
    have hfind : (runesFrom 0 (b0 :: rest)).find?
        (fun u => containsRune chars u.2) = some t0 := by
      cases hL : runesFrom 0 (b0 :: rest) with
      | nil => exact absurd hL (runesFrom_ne_nil 0 b0 rest)
      | cons a L' =>
        have hat : a = t0 := by
          rw [hL] at hhead
          simpa using hhead
        subst hat
        rw [List.find?_cons]
        simp [hmem]
    simp only [NotAnyOf]
    rw [if_neg hne, if_neg hc, if_neg (by simp [hv])]
    simp only [hfind]
    rw [hpos]
    simp

/-- Claim C4 amended witness: AnyOf("ab") on "ab!" consumes the run "ab"
and leaves "!". -/
theorem C4_witness :
    AnyOf [97, 98] [97, 98, 33]
        = .ok (([97, 98, 33] : GoStr).take 2) (([97, 98, 33] : GoStr).drop 2) ∧
      runesFrom 0 (([97, 98, 33] : GoStr).take 2)
        = (runesFrom 0 [97, 98, 33]).takeWhile (fun u => containsRune [97, 98] u.2) ∧
      validString (([97, 98, 33] : GoStr).take 2) = true :=
  C4_amended.1 [97, 98] [97, 98, 33] (0, 97) (2, 33) (by decide) (by decide) (by decide)
    (by decide) (by decide)


/-- The last element of a list sits at index length - 1. -/
theorem getLast?_eq_get_pred {α : Type} : ∀ (l : List α), l.getLast? = l.get? (l.length - 1) := by
  intro l
  induction l with
  | nil => rfl
  | cons a l ih =>
    cases l with
    | nil => rfl
    | cons b l2 =>
      rw [List.getLast?_cons_cons, ih]
      simp only [List.length_cons, Nat.add_sub_cancel, List.get?_cons_succ]

/-- Claim C6: with a valid configuration (0 ≤ lower ≤ upper, non-nil
predicate) and well-formed input, every TakeWhileBetween success returns
the leading predicate-true run truncated to at most upper chars: the
value's runes are exactly the first min(run length, upper) runes of the
run, the run is at least lower chars long, the value is valid UTF-8 and
value ++ remainder reconstructs the input.  The spec's three concrete
examples (lower=3, upper=6, letters) behave as stated: "latin123" gives
"latin"/"123", "lengthy" gives "length"/"y" (truncated to 6), and "ed"
fails with the below-lower failure. -/
theorem C6_bounded_window :
    (∀ (lower upper : Int) (p : Nat → Bool) (input v rem : GoStr),
      TakeWhileBetween lower upper (some p) input = .ok v rem →
      v ++ rem = input ∧ validString v = true ∧
      runesFrom 0 v
        = ((runesFrom 0 input).takeWhile (fun u => p u.2)).take upper.toNat ∧
      lower ≤ (((runesFrom 0 input).takeWhile (fun u => p u.2)).length : Int)) ∧
    TakeWhileBetween 3 6 (some asciiLetter) [108, 97, 116, 105, 110, 49, 50, 51]
      = .ok [108, 97, 116, 105, 110] [49, 50, 51] ∧
    TakeWhileBetween 3 6 (some asciiLetter) [108, 101, 110, 103, 116, 104, 121]
      = .ok [108, 101, 110, 103, 116, 104] [121] ∧
    TakeWhileBetween 3 6 (some asciiLetter) [101, 100]
      = .err (.twbBelowLower 2 [101, 100] 3) := by
  refine ⟨?_, by decide, by decide, by decide⟩
  intro lower upper p input v rem h
  simp only [TakeWhileBetween] at h
  split at h
  next => simp at h
  next hne =>
  split at h
  next => simp at h
  next hv' =>
  have hv : validString input = true := by simpa using hv'
  split at h
  next => simp at h
  next hl0 =>
  split at h
  next => simp at h
  next hlu =>
  split at h
  next => simp at h
  next hifunc =>
  split at h
  case isFalse => simp at h
  case isTrue hidx =>
  cases hg : ((runesFrom 0 input).takeWhile (fun u => p u.2)).getLast? with
  | none =>
    exfalso
    have hIdxEq : twbIndexLoop p (-1) (runesFrom 0 input) = -1 := by
      rw [twbIndexLoop_eq, hg]
    rw [hIdxEq] at hidx
    exact absurd hidx.1 (by omega)
  | some tl =>
    have hrunk : (runesFrom 0 input).take
          ((runesFrom 0 input).takeWhile (fun u => p u.2)).length
        = (runesFrom 0 input).takeWhile (fun u => p u.2) :=
      take_run_length _ _
    have hkpos : 1 ≤ ((runesFrom 0 input).takeWhile (fun u => p u.2)).length := by
      cases hrn : (runesFrom 0 input).takeWhile (fun u => p u.2) with
      | nil => rw [hrn] at hg; simp at hg
      | cons x xs => simp [hrn]
    have hkle : ((runesFrom 0 input).takeWhile (fun u => p u.2)).length
        ≤ (runesFrom 0 input).length := by
      have hlen := congrArg List.length hrunk
      rw [List.length_take] at hlen
      omega
    have hgetl : (runesFrom 0 input).get?
          (((runesFrom 0 input).takeWhile (fun u => p u.2)).length - 1) = some tl := by
      rw [← get?_of_take (runesFrom 0 input)
        ((runesFrom 0 input).takeWhile (fun u => p u.2)).length _ (by omega), hrunk]
      rw [← getLast?_eq_get_pred]
      exact hg
    obtain ⟨b, w, htl1, hrl, hw1, hbw, _, hvbw, _, _, _, hrbw, _⟩ :=
      runes_boundary input hv _ 0 tl hgetl
    simp only [Nat.zero_add] at htl1
    have hk1 : ((runesFrom 0 input).takeWhile (fun u => p u.2)).length - 1 + 1
        = ((runesFrom 0 input).takeWhile (fun u => p u.2)).length := by omega
    rw [hk1] at hrbw
    have hIdxEq : twbIndexLoop p (-1) (runesFrom 0 input) = ((b + w : Nat) : Int) := by
      rw [twbIndexLoop_eq, hg]
      show (tl.1 : Int) + runeLen tl.2 = ((b + w : Nat) : Int)
      rw [htl1, hrl]
      push_cast
      ring
    rw [hIdxEq] at h
    simp only [Int.toNat_natCast] at h
    have hn : runeCount (input.take (b + w))
        = ((runesFrom 0 input).takeWhile (fun u => p u.2)).length := by
      simp only [runeCount]
      rw [hrbw, List.length_take]
      omega
    rw [hn] at h
    split at h
    next => simp at h
    next hnl =>
    split at h
    case isTrue hnu =>
      -- natural run longer than upper: truncation branch
      rw [hrbw, hrunk] at h
      by_cases hu0 : upper = 0
      · subst hu0
        have hmiss := twbCutLoop_miss 0 ((runesFrom 0 input).takeWhile (fun u => p u.2))
          0 0 (by left; omega)
        rw [hmiss] at h
        obtain ⟨hvv, hrr⟩ := sliceAt_ok _ _ _ _ h
        have hvz : v = [] := by rw [hvv]; rfl
        have hrz : rem = input := by rw [hrr]; rfl
        subst hvz hrz
        refine ⟨by simp, by decide, ?_, by omega⟩
        simp [runesFrom_nil]
      · have hu1 : 1 ≤ upper := by omega
        have hk2 : upper.toNat - 1 < (runesFrom 0 input).length := by omega
        have hget2 : (runesFrom 0 input).get? (upper.toNat - 1)
            = some ((runesFrom 0 input).get ⟨upper.toNat - 1, hk2⟩) := List.get?_eq_get hk2
        obtain ⟨b2, w2, ht21, hrl2, hw21, hbw2, _, hvbw2, _, _, _, hrbw2, _⟩ :=
          runes_boundary input hv _ 0 _ hget2
        simp only [Nat.zero_add] at ht21
        have hget2' : ((runesFrom 0 input).takeWhile (fun u => p u.2)).get? (upper.toNat - 1)
            = some ((runesFrom 0 input).get ⟨upper.toNat - 1, hk2⟩) := by
          rw [← hrunk, get?_of_take _ _ _ (by omega)]
          exact hget2
        have hhit := twbCutLoop_hit upper ((runesFrom 0 input).takeWhile (fun u => p u.2))
          0 0 (upper.toNat - 1) _ (by push_cast; omega) hget2'
        rw [hhit, ht21, hrl2] at h
        have hcast : ((b2 : Int) + (w2 : Int)) = ((b2 + w2 : Nat) : Int) := by push_cast; ring
        rw [hcast] at h
        obtain ⟨hvv, hrr⟩ := sliceAt_ok _ _ _ _ h
        simp only [Int.toNat_natCast] at hvv hrr
        subst hvv hrr
        refine ⟨List.take_append_drop _ _, hvbw2, ?_, by omega⟩
        rw [hrbw2]
        have hut : upper.toNat - 1 + 1 = upper.toNat := by omega
        rw [hut]
        rw [← hrunk, List.take_take]
        congr 1
        omega
    case isFalse hnu =>
      -- run within upper: returned whole
      obtain ⟨hvv, hrr⟩ := sliceAt_ok _ _ _ _ h
      simp only [Int.toNat_natCast] at hvv hrr
      subst hvv hrr
      refine ⟨List.take_append_drop _ _, hvbw, ?_, by omega⟩
      have htr : ((runesFrom 0 input).takeWhile (fun u => p u.2)).take upper.toNat
          = (runesFrom 0 input).takeWhile (fun u => p u.2) :=
        List.take_of_length_le (by omega)
      rw [hrbw, htr]
      exact hrunk

/-- Claim C6 witness: the general conjunct applied to the latin123
example. -/
theorem C6_witness :
    ([108, 97, 116, 105, 110] : GoStr) ++ [49, 50, 51]
        = [108, 97, 116, 105, 110, 49, 50, 51] ∧
      validString [108, 97, 116, 105, 110] = true ∧
      runesFrom 0 [108, 97, 116, 105, 110]
        = ((runesFrom 0 [108, 97, 116, 105, 110, 49, 50, 51]).takeWhile
            (fun u => asciiLetter u.2)).take (6 : Int).toNat ∧
      (3 : Int) ≤ (((runesFrom 0 [108, 97, 116, 105, 110, 49, 50, 51]).takeWhile
          (fun u => asciiLetter u.2)).length : Int) :=
  C6_bounded_window.1 3 6 asciiLetter [108, 97, 116, 105, 110, 49, 50, 51]
    [108, 97, 116, 105, 110] [49, 50, 51] (by decide)


end Parser
